import Mathlib

/-!
Verification development for `pqueue` (a single-process persistent FIFO queue,
`pqueue/pqueue.py`).

The queue persists records into sequentially numbered chunk files `q%05d`
inside a directory, and keeps bookkeeping metadata (the dict
`{'chunksize', 'size', 'tail', 'head'}`) in a file `info`, replaced atomically
via `tempfile.mkstemp` + `os.rename`.  The in-memory object inherits from
Python's `queue.Queue` (`SyncQ`), which supplies the capacity guard in
`put`/`put_nowait`, the emptiness guard in `get`/`get_nowait`, and the
`unfinished_tasks` counter used by `task_done`.

Shallow embedding conventions:
* A file's content is a `List Nat` of bytes (`File`); the set of chunk files
  on disk is an association list `List (Nat × File)` keyed by chunk number.
* The metadata file `info` is modelled already decoded, as `Option Info`
  (`none` = no `info` file on disk).  `_saveinfo`'s observable effect after
  the atomic `os.rename` is setting this field in one step (`Disk.saveinfo`);
  the staging location of its temporary file is modelled separately
  (`saveinfoTempDir`) because it matters for one claim only.
* `pickle` is modelled by an abstract self-framing serializer (`Pickle`):
  `pickle.dump` appends `enc item`; `pickle.load` reads one frame from the
  current position (`dec`), with `dec (enc a ++ rest) = some (a, rest)`.
  Everything is proved for an arbitrary such serializer.
* File handles: `headf` is opened in append mode (`'ab+'`) and flushed after
  every dump, so its `tell()` is the head chunk's length and its buffer is
  always on disk; `tailf`'s read position is the field `tailPos`.  The flags
  `headOpen`/`tailOpen` record whether the handle currently held by the queue
  object is open (the close/reopen in the chunk-rollover paths); they matter
  for the failure-injection model.
* Exceptions are explicit: operations return the raised error (if any)
  together with the post-raise object state.  Python's `queue.Queue` raises
  `Full`/`Empty`/`ValueError` before mutating anything, so those branches
  return the input state unchanged.  Storage errors on paths that are
  unreachable in well-formed states (`pickle.load` hitting a bad frame,
  `open` of a missing chunk) are modelled as an outer `Option` = `none`.
-/

namespace PqueueModel

/-- Bytes of a file, as written by `pickle.dump` / raw `f.write`. -/
abbrev File := List Nat

/-- Cursor triple as stored in `info['head']` / `info['tail']`:
`[chunk number, record count within chunk, byte offset]`. -/
structure Cursor where
  num : Nat
  cnt : Nat
  off : Nat
deriving DecidableEq, Repr

/-- The persisted metadata dict built in `_loadinfo` / saved by `_saveinfo`:
`{'chunksize': …, 'size': …, 'tail': […], 'head': […]}`.  `size` is a Python
`int`, kept as `Int` so that the no-negative-size property is not forced by
the type. -/
structure Info where
  chunksize : Nat
  size : Int
  tail : Cursor
  head : Cursor
deriving DecidableEq, Repr

/-- Lookup of a chunk file by number (the association-list model of the
directory listing). -/
def fGet : List (Nat × File) → Nat → Option File
  | [], _ => none
  | (k, f) :: rest, n => if k = n then some f else fGet rest n

/-- Create-or-overwrite of a chunk file's content. -/
def fSet : List (Nat × File) → Nat → File → List (Nat × File)
  | [], n, v => [(n, v)]
  | (k, f) :: rest, n, v => if k = n then (n, v) :: rest else (k, f) :: fSet rest n v

/-- The effect of `os.remove` on the directory listing. -/
def fDel : List (Nat × File) → Nat → List (Nat × File)
  | [], _ => []
  | (k, f) :: rest, n => if k = n then rest else (k, f) :: fDel rest n

/-- The effect of `open(fn, 'ab+')` on the directory: creates an empty file
when none exists, otherwise leaves the existing content alone. -/
def touch (fs : List (Nat × File)) (n : Nat) : List (Nat × File) :=
  match fGet fs n with
  | some _ => fs
  | none => fSet fs n []

/-- On-disk state: the chunk files plus the (decoded) metadata file `info`. -/
structure Disk where
  files : List (Nat × File)
  infoFile : Option Info
deriving DecidableEq, Repr

/-- Net effect of `_saveinfo` on the durable state: the temporary file is
written and then `os.rename`d onto the canonical path, which POSIX makes a
single atomic replacement — so the metadata file goes from its old value to
the new one in one step, never holding a partial write. -/
def Disk.saveinfo (d : Disk) (i : Info) : Disk :=
  { d with infoFile := some i }

/-- An empty persistence directory. -/
def emptyDisk : Disk := ⟨[], none⟩

/-- Abstract model of the `pickle` serialization contract the code relies on:
`dump` appends a self-delimiting frame `enc a`; `load` at a frame boundary
decodes that frame and leaves the handle right after it. -/
structure Pickle where
  enc : Nat → List Nat
  dec : List Nat → Option (Nat × List Nat)
  enc_ne : ∀ a, enc a ≠ []
  dec_enc : ∀ a rest, dec (enc a ++ rest) = some (a, rest)

/-- Concatenated frames of a list of records: the content of a chunk file
that holds exactly these records. -/
def encList (P : Pickle) (l : List Nat) : List Nat := (l.map P.enc).flatten

/-- In-memory state of the `Queue` object (`pqueue.Queue` plus the fields it
uses from its `queue.Queue` base). -/
structure PQ where
  maxsize : Int
  info : Info
  headNum : Nat      -- chunk number the handle `headf` is open on
  tailNum : Nat      -- chunk number the handle `tailf` is open on
  tailPos : Nat      -- `tailf.tell()`
  headOpen : Bool    -- whether `headf` is an open handle
  tailOpen : Bool    -- whether `tailf` is an open handle
  unfinished : Int   -- `unfinished_tasks`
  update_info : Bool
deriving DecidableEq, Repr

/-- Error taxonomy of the operations modelled here: `queue.Full`,
`queue.Empty`, and the `ValueError` from `task_done` over-calls. -/
inductive QErr
  | full
  | empty
  | invalidAck
deriving DecidableEq, Repr

/-- Combined in-memory and on-disk state threaded through the operations. -/
structure Sys where
  q : PQ
  disk : Disk
deriving DecidableEq, Repr

/-- The default metadata built by `_loadinfo` when no `info` file exists. -/
def defaultInfo (chunksize : Nat) : Info :=
  { chunksize := chunksize, size := 0, tail := ⟨0, 0, 0⟩, head := ⟨0, 0, 0⟩ }

/-- Model of `Queue.__init__` (after `_init` created the directory):
`_loadinfo`, truncation of trailing garbage in the head chunk down to the
persisted head byte offset, opening `headf` (`'ab+'`, creating the file) and
`tailf` (`'r'`, failing with `FileNotFoundError` when absent — the outer
`none`), seeking `tailf` to the persisted tail offset, and initializing
`unfinished_tasks` and `update_info`. -/
def openQueue (maxsize : Int) (chunksize : Nat) (d : Disk) : Option Sys :=
  let info := d.infoFile.getD (defaultInfo chunksize)
  let files1 :=
    match fGet d.files info.head.num with
    | none => d.files
    | some f =>
        if info.head.off < f.length
        then fSet d.files info.head.num (f.take info.head.off)
        else d.files
  let files2 := touch files1 info.head.num
  match fGet files2 info.tail.num with
  | none => none
  | some _ =>
      let q : PQ :=
        { maxsize := maxsize
          info := info
          headNum := info.head.num
          tailNum := info.tail.num
          tailPos := info.tail.off
          headOpen := true
          tailOpen := true
          unfinished := info.size
          update_info := true }
      some { q := q, disk := { files := files2, infoFile := d.infoFile } }

/-- Model of `Queue._put`: dump the frame into `headf` (the chunk `headNum`)
and flush; advance the head cursor, rolling over into a freshly created chunk
when the count reaches `chunksize`; bump `size`; store `headf.tell()` as the
head byte offset; `_saveinfo`. -/
def _put (P : Pickle) (s : Sys) (item : Nat) : Sys :=
  let content := (fGet s.disk.files s.q.headNum).getD [] ++ P.enc item
  let files := fSet s.disk.files s.q.headNum content
  let hnum := s.q.info.head.num
  let hpos := s.q.info.head.cnt + 1
  if hpos = s.q.info.chunksize then
    let files2 := touch files (hnum + 1)
    let tell := ((fGet files2 (hnum + 1)).getD []).length
    let info := { s.q.info with size := s.q.info.size + 1, head := ⟨hnum + 1, 0, tell⟩ }
    let q' := { s.q with info := info, headNum := hnum + 1, headOpen := true }
    { q := q', disk := Disk.saveinfo { files := files2, infoFile := s.disk.infoFile } info }
  else
    let info := { s.q.info with size := s.q.info.size + 1, head := ⟨hnum, hpos, content.length⟩ }
    { q := { s.q with info := info }
      disk := Disk.saveinfo { files := files, infoFile := s.disk.infoFile } info }

/-- Model of `Queue._get`: the `[tnum, tcnt] >= [hnum, hcnt]` lexicographic
guard returns `None` with nothing touched; otherwise `pickle.load` one frame
from `tailf`, advance the tail cursor, on draining a full chunk (count
reaching `chunksize`, with `tnum <= hnum`) close/remove it and open the next
chunk for reading; decrement `size`; mark the metadata dirty.  The outer
`none` is a raised storage/corruption error (unpickling failure, or the next
chunk file missing). -/
def _get (P : Pickle) (s : Sys) : Option (Option Nat × Sys) :=
  let t := s.q.info.tail
  let h := s.q.info.head
  if h.num < t.num ∨ (t.num = h.num ∧ h.cnt ≤ t.cnt) then some (none, s)
  else
    let content := (fGet s.disk.files s.q.tailNum).getD []
    match P.dec (content.drop s.q.tailPos) with
    | none => none
    | some (v, rest) =>
        let toff := content.length - rest.length
        let tcnt := t.cnt + 1
        if tcnt = s.q.info.chunksize ∧ t.num ≤ h.num then
          let files := fDel s.disk.files s.q.tailNum
          match fGet files (t.num + 1) with
          | none => none
          | some _ =>
              let info := { s.q.info with size := s.q.info.size - 1, tail := ⟨t.num + 1, 0, 0⟩ }
              let q' :=
                { s.q with
                  info := info
                  tailNum := t.num + 1
                  tailPos := 0
                  tailOpen := true
                  update_info := true }
              some (some v, { q := q', disk := { s.disk with files := files } })
        else
          let info := { s.q.info with size := s.q.info.size - 1, tail := ⟨t.num, tcnt, toff⟩ }
          let q' := { s.q with info := info, tailPos := toff, update_info := true }
          some (some v, { q := q', disk := s.disk })

/-- Model of `queue.Queue.put(item, block=False)` on this subclass: with a
positive `maxsize`, raise `Full` (state untouched — the raise precedes any
mutation) when `_qsize() >= maxsize`; else `_put`, then increment
`unfinished_tasks`. -/
def put_nowait (P : Pickle) (s : Sys) (item : Nat) : Except QErr Unit × Sys :=
  if 0 < s.q.maxsize ∧ s.q.maxsize ≤ s.q.info.size then (Except.error QErr.full, s)
  else
    let s1 := _put P s item
    (Except.ok (), { s1 with q := { s1.q with unfinished := s1.q.unfinished + 1 } })

/-- Model of `queue.Queue.get(block=False)` on this subclass: raise `Empty`
(state untouched) when `_qsize()` is falsy, i.e. zero; else return whatever
`_get` returns.  The outer `none` is a propagated storage error from `_get`. -/
def get_nowait (P : Pickle) (s : Sys) : Option (Except QErr (Option Nat) × Sys) :=
  if s.q.info.size = 0 then some (Except.error QErr.empty, s)
  else
    match _get P s with
    | none => none
    | some (v, s') => some (Except.ok v, s')

/-- Model of `Queue.task_done`: first `SyncQ.task_done` (raise `ValueError`
when `unfinished_tasks - 1 < 0`, with nothing mutated; otherwise decrement
and signal), and only then, on the success path, `_saveinfo` if the dirty
flag `update_info` is set, clearing it. -/
def task_done (s : Sys) : Except QErr Unit × Sys :=
  if s.q.unfinished - 1 < 0 then (Except.error QErr.invalidAck, s)
  else
    let s1 : Sys := { s with q := { s.q with unfinished := s.q.unfinished - 1 } }
    if s1.q.update_info then
      (Except.ok (),
        { q := { s1.q with update_info := false }
          disk := Disk.saveinfo s1.disk s1.q.info })
    else (Except.ok (), s1)

/-- Comparison definition following the spec's words for the ordering inside
`taskDone` ("persists metadata if dirty, then clears the dirty flag, then
performs the BlockingQueueCore decrement/signal"): persist-and-clear first,
decrement (with its `ValueError` guard) afterwards. -/
def task_doneSpecOrder (s : Sys) : Except QErr Unit × Sys :=
  let s1 : Sys :=
    if s.q.update_info then
      { q := { s.q with update_info := false }, disk := Disk.saveinfo s.disk s.q.info }
    else s
  if s1.q.unfinished - 1 < 0 then (Except.error QErr.invalidAck, s1)
  else (Except.ok (), { s1 with q := { s1.q with unfinished := s1.q.unfinished - 1 } })

/-- Iterated `put_nowait`; `none` as soon as one call raises. -/
def putAll (P : Pickle) : List Nat → Sys → Option Sys
  | [], s => some s
  | x :: xs, s =>
      match put_nowait P s x with
      | (Except.ok _, s') => putAll P xs s'
      | (Except.error _, _) => none

/-- Iterated `get_nowait`, collecting the returned items; `none` when a call
raises or returns the end-of-queue `None`. -/
def drain (P : Pickle) : Nat → Sys → Option (List Nat × Sys)
  | 0, s => some ([], s)
  | n + 1, s =>
      match get_nowait P s with
      | some (Except.ok (some v), s') =>
          match drain P n s' with
          | some (l, s'') => some (v :: l, s'')
          | none => none
      | _ => none

/-- The directory name constant `TEMP_SUBDIRECTORY = '_temp'`. -/
def TEMP_SUBDIRECTORY : String := "_temp"

/-- The system default temporary directory that `tempfile.mkstemp` falls back
to when its `dir` argument is `None` (`tempfile.gettempdir()`); `/tmp` on a
stock Linux.  Its only relevant property is that it is a fixed location
independent of the queue's `path`. -/
def defaultTempDir : String := "/tmp"

/-- `self.path_temp` as set in `__init__`: the `_temp` subdirectory of `path`
when `temp_subdir` is requested, else `None`. -/
def pathTemp (path : String) (temp_subdir : Bool) : Option String :=
  if temp_subdir then some (path ++ "/" ++ TEMP_SUBDIRECTORY) else none

/-- The directory in which `_saveinfo`'s `tempfile.mkstemp(dir=self.path_temp)`
creates the temporary metadata file. -/
def saveinfoTempDir (path : String) (temp_subdir : Bool) : String :=
  match pathTemp path temp_subdir with
  | some p => p
  | none => defaultTempDir

/-- Comparison definition following the spec's words: the temporary file is
claimed to live in the same directory as the canonical `info` file (i.e.
`path` itself), or in the staging subdirectory when that is configured. -/
def saveinfoTempDirSpec (path : String) (temp_subdir : Bool) : String :=
  if temp_subdir then path ++ "/" ++ TEMP_SUBDIRECTORY else path

/-- Failure-injection points for the storage primitives of `_put` whose
effects are atomic at the model's granularity: `ok` injects no failure,
`openHead` makes the `open` of the next head chunk during rollover raise,
`rename` makes the `os.rename` inside `_saveinfo` raise. -/
inductive FailAt
  | ok
  | openHead
  | rename
deriving DecidableEq, Repr

/-- Model of `Queue._put` with one injected primitive failure: the `Bool` is
`false` when the injected exception was actually reached and raised, and the
returned state is the object state at the moment of the raise (everything
mutated before the failing primitive stays mutated, nothing after it runs). -/
def _putF (P : Pickle) (fp : FailAt) (s : Sys) (item : Nat) : Bool × Sys :=
  let content := (fGet s.disk.files s.q.headNum).getD [] ++ P.enc item
  let files := fSet s.disk.files s.q.headNum content
  let hnum := s.q.info.head.num
  let hpos := s.q.info.head.cnt + 1
  if hpos = s.q.info.chunksize then
    -- `self.headf.close()` has already happened when the reopening `open` runs
    if fp = FailAt.openHead then
      (false,
        { q := { s.q with headOpen := false }
          disk := { files := files, infoFile := s.disk.infoFile } })
    else
      let files2 := touch files (hnum + 1)
      let tell := ((fGet files2 (hnum + 1)).getD []).length
      let info := { s.q.info with size := s.q.info.size + 1, head := ⟨hnum + 1, 0, tell⟩ }
      let q' := { s.q with info := info, headNum := hnum + 1, headOpen := true }
      if fp = FailAt.rename then
        (false, { q := q', disk := { files := files2, infoFile := s.disk.infoFile } })
      else
        (true, { q := q', disk := Disk.saveinfo { files := files2, infoFile := s.disk.infoFile } info })
  else
    let info := { s.q.info with size := s.q.info.size + 1, head := ⟨hnum, hpos, content.length⟩ }
    if fp = FailAt.rename then
      (false,
        { q := { s.q with info := info }
          disk := { files := files, infoFile := s.disk.infoFile } })
    else
      (true,
        { q := { s.q with info := info }
          disk := Disk.saveinfo { files := files, infoFile := s.disk.infoFile } info })

/-- States reachable from a queue freshly opened on an empty directory by
successful `put_nowait` / `get_nowait` / `task_done` calls. -/
inductive Reach (P : Pickle) (ms : Int) (cs : Nat) : Sys → Prop where
  | init : ∀ s, openQueue ms cs emptyDisk = some s → Reach P ms cs s
  | put : ∀ s it s', Reach P ms cs s → put_nowait P s it = (Except.ok (), s') → Reach P ms cs s'
  | get : ∀ s v s', Reach P ms cs s → get_nowait P s = some (Except.ok v, s') → Reach P ms cs s'
  | done : ∀ s s', Reach P ms cs s → task_done s = (Except.ok (), s') → Reach P ms cs s'

/-- Concatenation of the records of chunks `s, s+1, …, s+n-1`. -/
def chunkCat (items : Nat → List Nat) (s : Nat) : Nat → List Nat
  | 0 => []
  | n + 1 => items s ++ chunkCat items (s + 1) n

/-- Representation invariant: the queue state `s` holds exactly the records
`pending` (front first), with `items n` the full record list of chunk `n`
(consumed ones included for the tail chunk). -/
structure RepWith (P : Pickle) (s : Sys) (items : Nat → List Nat) (pending : List Nat) : Prop where
  hcs : 1 ≤ s.q.info.chunksize
  hle : s.q.info.tail.num ≤ s.q.info.head.num
  hhc : s.q.info.head.cnt < s.q.info.chunksize
  htc : s.q.info.tail.cnt < s.q.info.chunksize
  htle : s.q.info.tail.num = s.q.info.head.num → s.q.info.tail.cnt ≤ s.q.info.head.cnt
  hlen : ∀ n, s.q.info.tail.num ≤ n → n ≤ s.q.info.head.num →
    (items n).length = (if n = s.q.info.head.num then s.q.info.head.cnt else s.q.info.chunksize)
  hfiles : ∀ n, s.q.info.tail.num ≤ n → n ≤ s.q.info.head.num →
    fGet s.disk.files n = some (encList P (items n))
  hnof : ∀ n, n < s.q.info.tail.num ∨ s.q.info.head.num < n → fGet s.disk.files n = none
  hpend : pending = (items s.q.info.tail.num).drop s.q.info.tail.cnt ++
    chunkCat items (s.q.info.tail.num + 1) (s.q.info.head.num - s.q.info.tail.num)
  hsz : s.q.info.size = (pending.length : Int)
  hhoff : s.q.info.head.off = (encList P (items s.q.info.head.num)).length
  htoff : s.q.info.tail.off = (encList P ((items s.q.info.tail.num).take s.q.info.tail.cnt)).length
  htpos : s.q.tailPos = s.q.info.tail.off
  hhn : s.q.headNum = s.q.info.head.num
  htn : s.q.tailNum = s.q.info.tail.num
  hho : s.q.headOpen = true
  hto : s.q.tailOpen = true
  hnodup : (s.disk.files.map Prod.fst).Nodup

/-- A state represents a pending-record list when some per-chunk record
assignment witnesses the representation invariant. -/
def Rep (P : Pickle) (s : Sys) (pending : List Nat) : Prop :=
  ∃ items, RepWith P s items pending

theorem fGet_fSet_self (fs : List (Nat × File)) (n : Nat) (v : File) :
    fGet (fSet fs n v) n = some v := by
  induction fs with
  | nil => simp [fSet, fGet]
  | cons kf rest ih =>
      obtain ⟨k, f⟩ := kf
      by_cases h : k = n <;> simp [fSet, fGet, h, ih]

theorem fGet_fSet_ne (fs : List (Nat × File)) (n m : Nat) (v : File) (h : m ≠ n) :
    fGet (fSet fs n v) m = fGet fs m := by
  have hnm : ¬ n = m := fun hh => h hh.symm
  induction fs with
  | nil => simp [fSet, fGet, hnm]
  | cons kf rest ih =>
      obtain ⟨k, f⟩ := kf
      by_cases hk : k = n
      · subst hk
        simp [fSet, fGet, hnm]
      · simp only [fSet, if_neg hk, fGet]
        by_cases hm : k = m
        · simp [hm]
        · simp [hm, ih]

theorem fGet_none_of_not_mem (fs : List (Nat × File)) (n : Nat)
    (h : n ∉ fs.map Prod.fst) : fGet fs n = none := by
  induction fs with
  | nil => rfl
  | cons kf rest ih =>
      obtain ⟨k, f⟩ := kf
      simp only [List.map_cons, List.mem_cons] at h
      push_neg at h
      have hk : ¬ k = n := fun hh => h.1 hh.symm
      simp [fGet, hk, ih h.2]

theorem fGet_fDel_ne (fs : List (Nat × File)) (n m : Nat) (h : m ≠ n) :
    fGet (fDel fs n) m = fGet fs m := by
  induction fs with
  | nil => rfl
  | cons kf rest ih =>
      obtain ⟨k, f⟩ := kf
      by_cases hk : k = n
      · subst hk
        have hkm : ¬ k = m := fun hh => h hh.symm
        simp [fDel, fGet, hkm]
      · simp only [fDel, if_neg hk, fGet]
        by_cases hm : k = m
        · simp [hm]
        · simp [hm, ih]

theorem fGet_fDel_self (fs : List (Nat × File)) (n : Nat)
    (hnd : (fs.map Prod.fst).Nodup) : fGet (fDel fs n) n = none := by
  induction fs with
  | nil => rfl
  | cons kf rest ih =>
      obtain ⟨k, f⟩ := kf
      simp only [List.map_cons, List.nodup_cons] at hnd
      by_cases hk : k = n
      · subst hk
        simp only [fDel, if_pos rfl]
        exact fGet_none_of_not_mem rest k hnd.1
      · simp [fDel, fGet, hk, ih hnd.2]

theorem mem_keys_fSet (fs : List (Nat × File)) (n m : Nat) (v : File)
    (h : m ∈ (fSet fs n v).map Prod.fst) : m ∈ fs.map Prod.fst ∨ m = n := by
  induction fs with
  | nil => exact Or.inr (by simpa [fSet] using h)
  | cons kf rest ih =>
      obtain ⟨k, f⟩ := kf
      by_cases hk : k = n
      · subst hk
        have e : fSet ((k, f) :: rest) k v = (k, v) :: rest := by simp [fSet]
        rw [e] at h
        simp only [List.map_cons, List.mem_cons] at h ⊢
        rcases h with h | h
        · exact Or.inr h
        · exact Or.inl (Or.inr h)
      · simp only [fSet, if_neg hk, List.map_cons, List.mem_cons] at h ⊢
        rcases h with h | h
        · exact Or.inl (Or.inl h)
        · rcases ih h with h2 | h2
          · exact Or.inl (Or.inr h2)
          · exact Or.inr h2

theorem fSet_nodup (fs : List (Nat × File)) (n : Nat) (v : File)
    (hnd : (fs.map Prod.fst).Nodup) : ((fSet fs n v).map Prod.fst).Nodup := by
  induction fs with
  | nil => simp [fSet]
  | cons kf rest ih =>
      obtain ⟨k, f⟩ := kf
      simp only [List.map_cons, List.nodup_cons] at hnd
      by_cases hk : k = n
      · subst hk
        simpa [fSet] using hnd
      · simp only [fSet, if_neg hk, List.map_cons, List.nodup_cons]
        refine ⟨fun hmem => ?_, ih hnd.2⟩
        rcases mem_keys_fSet rest n k v hmem with h2 | h2
        · exact hnd.1 h2
        · exact hk h2

theorem mem_keys_fDel (fs : List (Nat × File)) (n m : Nat)
    (h : m ∈ (fDel fs n).map Prod.fst) : m ∈ fs.map Prod.fst := by
  induction fs with
  | nil => simp [fDel] at h
  | cons kf rest ih =>
      obtain ⟨k, f⟩ := kf
      by_cases hk : k = n
      · subst hk
        simp only [List.map_cons, List.mem_cons]
        refine Or.inr ?_
        have e : fDel ((k, f) :: rest) k = rest := by simp [fDel]
        rw [e] at h
        exact h
      · simp only [fDel, if_neg hk, List.map_cons, List.mem_cons] at h ⊢
        rcases h with h | h
        · exact Or.inl h
        · exact Or.inr (ih h)

theorem fDel_nodup (fs : List (Nat × File)) (n : Nat)
    (hnd : (fs.map Prod.fst).Nodup) : ((fDel fs n).map Prod.fst).Nodup := by
  induction fs with
  | nil => simp [fDel]
  | cons kf rest ih =>
      obtain ⟨k, f⟩ := kf
      simp only [List.map_cons, List.nodup_cons] at hnd
      by_cases hk : k = n
      · subst hk
        simpa [fDel] using hnd.2
      · simp only [fDel, if_neg hk, List.map_cons, List.nodup_cons]
        exact ⟨fun hmem => hnd.1 (mem_keys_fDel rest n k hmem), ih hnd.2⟩

theorem touch_nodup (fs : List (Nat × File)) (n : Nat)
    (hnd : (fs.map Prod.fst).Nodup) : ((touch fs n).map Prod.fst).Nodup := by
  unfold touch
  cases fGet fs n with
  | none => exact fSet_nodup fs n [] hnd
  | some f => exact hnd

theorem touch_of_some (fs : List (Nat × File)) (n : Nat) (f : File)
    (h : fGet fs n = some f) : touch fs n = fs := by
  simp [touch, h]

theorem touch_of_none (fs : List (Nat × File)) (n : Nat)
    (h : fGet fs n = none) : touch fs n = fSet fs n [] := by
  simp [touch, h]

theorem fGet_touch_ne (fs : List (Nat × File)) (n m : Nat) (h : m ≠ n) :
    fGet (touch fs n) m = fGet fs m := by
  unfold touch
  cases hg : fGet fs n with
  | none => exact fGet_fSet_ne fs n m [] h
  | some f => rfl

theorem encList_nil (P : Pickle) : encList P [] = [] := rfl

theorem encList_cons (P : Pickle) (x : Nat) (l : List Nat) :
    encList P (x :: l) = P.enc x ++ encList P l := by
  simp [encList]

theorem encList_append (P : Pickle) (a b : List Nat) :
    encList P (a ++ b) = encList P a ++ encList P b := by
  simp [encList]

theorem chunkCat_zero (items : Nat → List Nat) (s : Nat) : chunkCat items s 0 = [] := rfl

theorem chunkCat_succ (items : Nat → List Nat) (s n : Nat) :
    chunkCat items s (n + 1) = items s ++ chunkCat items (s + 1) n := rfl

theorem chunkCat_succ_right (items : Nat → List Nat) (s n : Nat) :
    chunkCat items s (n + 1) = chunkCat items s n ++ items (s + n) := by
  induction n generalizing s with
  | zero => simp [chunkCat]
  | succ m ih =>
      rw [chunkCat_succ, ih (s + 1), chunkCat_succ, List.append_assoc]
      have : s + 1 + m = s + (m + 1) := by omega
      rw [this]

theorem chunkCat_congr (items items' : Nat → List Nat) (s n : Nat)
    (h : ∀ k, s ≤ k → k < s + n → items k = items' k) :
    chunkCat items s n = chunkCat items' s n := by
  induction n generalizing s with
  | zero => rfl
  | succ m ih =>
      rw [chunkCat_succ, chunkCat_succ, h s (Nat.le_refl s) (by omega),
        ih (s + 1) (fun k hk1 hk2 => h k (by omega) (by omega))]

theorem chunkCat_length (items : Nat → List Nat) (cs s n : Nat)
    (h : ∀ k, s ≤ k → k < s + n → (items k).length = cs) :
    (chunkCat items s n).length = n * cs := by
  induction n generalizing s with
  | zero => simp [chunkCat]
  | succ m ih =>
      rw [chunkCat_succ, List.length_append, h s (Nat.le_refl s) (by omega),
        ih (s + 1) (fun k hk1 hk2 => h k (by omega) (by omega))]
      ring

theorem take_succ_get (l : List Nat) (n : Nat) (h : n < l.length) :
    l.take (n + 1) = l.take n ++ [l.get ⟨n, h⟩] := by
  induction l generalizing n with
  | nil => simp at h
  | cons x xs ih =>
      cases n with
      | zero => simp
      | succ m =>
          simp only [List.take_succ_cons, List.get_cons_succ]
          rw [ih m (by simpa using h)]
          simp

theorem encList_snoc (P : Pickle) (l : List Nat) (x : Nat) :
    encList P (l ++ [x]) = encList P l ++ P.enc x := by
  simp [encList]

/-- Changing only `unfinished_tasks` preserves the representation
invariant (it never mentions that counter). -/
theorem rep_unfin (P : Pickle) (s : Sys) (items : Nat → List Nat) (pending : List Nat) (u : Int)
    (h : RepWith P s items pending) :
    RepWith P { s with q := { s.q with unfinished := u } } items pending := by
  obtain ⟨h1, h2, h3, h4, h5, h6, h7, h8, h9, h10, h11, h12, h13, h14, h15, h16, h17, h18⟩ := h
  exact ⟨h1, h2, h3, h4, h5, h6, h7, h8, h9, h10, h11, h12, h13, h14, h15, h16, h17, h18⟩

/-- Persisting the metadata file and clearing/setting the dirty flag
preserves the representation invariant (it constrains neither). -/
theorem rep_save (P : Pickle) (s : Sys) (items : Nat → List Nat) (pending : List Nat)
    (b : Bool) (i : Info) (h : RepWith P s items pending) :
    RepWith P { q := { s.q with update_info := b }, disk := Disk.saveinfo s.disk i }
      items pending := by
  obtain ⟨h1, h2, h3, h4, h5, h6, h7, h8, h9, h10, h11, h12, h13, h14, h15, h16, h17, h18⟩ := h
  exact ⟨h1, h2, h3, h4, h5, h6, h7, h8, h9, h10, h11, h12, h13, h14, h15, h16, h17, h18⟩

/-- A freshly opened queue on an empty directory represents the empty
record list, with the default zeroed metadata not yet persisted. -/
theorem rep_fresh (P : Pickle) (ms : Int) (cs : Nat) (s : Sys) (hcs : 1 ≤ cs)
    (h : openQueue ms cs emptyDisk = some s) :
    Rep P s [] ∧ s.q.info = defaultInfo cs ∧ s.disk.infoFile = none ∧
      s.q.maxsize = ms ∧ s.q.unfinished = 0 ∧ s.q.update_info = true := by
  have e : openQueue ms cs emptyDisk = some
      { q := { maxsize := ms, info := defaultInfo cs, headNum := 0, tailNum := 0,
               tailPos := 0, headOpen := true, tailOpen := true, unfinished := 0,
               update_info := true },
        disk := { files := [(0, [])], infoFile := none } } := rfl
  rw [e] at h
  obtain rfl : _ = s := Option.some.inj h
  refine ⟨⟨fun _ => [], ?_, ?_, ?_, ?_, ?_, ?_, ?_, ?_, ?_, ?_, ?_, ?_, ?_, ?_, ?_, ?_, ?_, ?_⟩,
    rfl, rfl, rfl, rfl, rfl⟩
  · exact hcs
  · exact Nat.le_refl 0
  · exact hcs
  · exact hcs
  · intro _; exact Nat.le_refl 0
  · intro n h1 h2
    simp only [defaultInfo] at h1 h2
    have : n = 0 := by omega
    subst this
    simp [defaultInfo]
  · intro n h1 h2
    simp only [defaultInfo] at h1 h2
    have : n = 0 := by omega
    subst this
    simp [fGet, encList]
  · intro n hn
    simp only [defaultInfo] at hn
    have : ¬ (0 = n) := by omega
    simp [fGet, this]
  · simp [chunkCat, defaultInfo]
  · simp [defaultInfo]
  · simp [encList, defaultInfo]
  · simp [encList, defaultInfo]
  · rfl
  · rfl
  · rfl
  · rfl
  · rfl
  · simp

theorem fGet_fSet_isSome (fs : List (Nat × File)) (k m : Nat) (v : File)
    (h : (fGet fs m).isSome) : (fGet (fSet fs k v) m).isSome := by
  by_cases hm : m = k
  · subst hm
    rw [fGet_fSet_self]
    rfl
  · rw [fGet_fSet_ne fs k m v hm]
    exact h

theorem fGet_touch_isSome (fs : List (Nat × File)) (k m : Nat)
    (h : (fGet fs m).isSome) : (fGet (touch fs k) m).isSome := by
  unfold touch
  cases hg : fGet fs k with
  | some f => exact h
  | none => exact fGet_fSet_isSome fs k m [] h

/-- The write path never deletes a chunk file: every file present before
`_put` is still present after it. -/
theorem _put_keeps (P : Pickle) (s : Sys) (it n : Nat)
    (h : (fGet s.disk.files n).isSome) : (fGet (_put P s it).disk.files n).isSome := by
  unfold _put
  dsimp only
  split
  · exact fGet_touch_isSome _ _ _ (fGet_fSet_isSome _ _ _ _ h)
  · exact fGet_fSet_isSome _ _ _ _ h

/-- Effect of a successful `_put` on a well-formed state: the new record is
appended at the head, metadata is persisted, and the representation
invariant carries over to `pending ++ [it]`. -/
theorem _put_spec (P : Pickle) (s : Sys) (items : Nat → List Nat) (pending : List Nat) (it : Nat)
    (h : RepWith P s items pending) :
    Rep P (_put P s it) (pending ++ [it]) ∧
    (_put P s it).disk.infoFile = some (_put P s it).q.info ∧
    (_put P s it).q.info.chunksize = s.q.info.chunksize ∧
    (_put P s it).q.maxsize = s.q.maxsize ∧
    (_put P s it).q.unfinished = s.q.unfinished ∧
    (_put P s it).q.update_info = s.q.update_info ∧
    (_put P s it).q.info.size = s.q.info.size + 1 := by
  obtain ⟨hcs, hle, hhc, htc, htle, hlen, hfiles, hnof, hpend, hsz, hhoff, htoff, htpos,
    hhn, htn, hho, hto, hnodup⟩ := h
  have hg : fGet s.disk.files s.q.headNum = some (encList P (items s.q.info.head.num)) := by
    rw [hhn]
    exact hfiles _ hle (Nat.le_refl _)
  have hKlen : (items s.q.info.head.num).length = s.q.info.head.cnt := by
    have t := hlen _ hle (Nat.le_refl _)
    simpa using t
  by_cases hroll : s.q.info.head.cnt + 1 = s.q.info.chunksize
  · -- rollover into a fresh head chunk
    have hnoH1 : fGet (fSet s.disk.files s.q.headNum
        (encList P (items s.q.info.head.num ++ [it]))) (s.q.info.head.num + 1) = none := by
      rw [hhn, fGet_fSet_ne _ _ _ _ (by omega)]
      exact hnof _ (Or.inr (by omega))
    have e : _put P s it =
        { q :=
            { s.q with
              info :=
                { s.q.info with
                  size := s.q.info.size + 1
                  head := ⟨s.q.info.head.num + 1, 0, 0⟩ }
              headNum := s.q.info.head.num + 1
              headOpen := true }
          disk :=
            { files :=
                fSet (fSet s.disk.files s.q.headNum
                  (encList P (items s.q.info.head.num ++ [it])))
                  (s.q.info.head.num + 1) []
              infoFile :=
                some
                  { s.q.info with
                    size := s.q.info.size + 1
                    head := ⟨s.q.info.head.num + 1, 0, 0⟩ } } } := by
      simp only [_put, hg, Option.getD_some, Disk.saveinfo]
      rw [← encList_snoc]
      rw [if_pos hroll]
      rw [touch_of_none _ _ hnoH1]
      rw [fGet_fSet_self]
      rfl
    rw [e]
    have f2 : s.q.info.tail.num ≤ s.q.info.head.num + 1 := by omega
    have f3 : 0 < s.q.info.chunksize := hcs
    have f5 : s.q.info.tail.num = s.q.info.head.num + 1 → s.q.info.tail.cnt ≤ 0 := by
      intro hh
      omega
    have f6 : ∀ n, s.q.info.tail.num ≤ n → n ≤ s.q.info.head.num + 1 →
        (if n = s.q.info.head.num + 1 then ([] : List Nat)
         else if n = s.q.info.head.num then items s.q.info.head.num ++ [it] else items n).length =
        (if n = s.q.info.head.num + 1 then 0 else s.q.info.chunksize) := by
      intro n h1 h2
      by_cases hn1 : n = s.q.info.head.num + 1
      · rw [if_pos hn1, if_pos hn1]
        rfl
      · rw [if_neg hn1, if_neg hn1]
        by_cases hn : n = s.q.info.head.num
        · rw [if_pos hn, List.length_append, hKlen]
          simpa using hroll
        · rw [if_neg hn]
          have t := hlen n h1 (by omega)
          rwa [if_neg hn] at t
    have f7 : ∀ n, s.q.info.tail.num ≤ n → n ≤ s.q.info.head.num + 1 →
        fGet (fSet (fSet s.disk.files s.q.headNum
            (encList P (items s.q.info.head.num ++ [it]))) (s.q.info.head.num + 1) []) n =
        some (encList P (if n = s.q.info.head.num + 1 then ([] : List Nat)
          else if n = s.q.info.head.num then items s.q.info.head.num ++ [it] else items n)) := by
      intro n h1 h2
      by_cases hn1 : n = s.q.info.head.num + 1
      · subst hn1
        rw [fGet_fSet_self, if_pos rfl]
        rfl
      · rw [fGet_fSet_ne _ _ _ _ hn1, if_neg hn1]
        by_cases hn : n = s.q.info.head.num
        · subst hn
          rw [← hhn, fGet_fSet_self, if_pos rfl]
        · rw [hhn, fGet_fSet_ne _ _ _ _ hn, if_neg hn]
          exact hfiles n h1 (by omega)
    have f8 : ∀ n, n < s.q.info.tail.num ∨ s.q.info.head.num + 1 < n →
        fGet (fSet (fSet s.disk.files s.q.headNum
            (encList P (items s.q.info.head.num ++ [it]))) (s.q.info.head.num + 1) []) n = none := by
      intro n hn
      have hn1 : n ≠ s.q.info.head.num + 1 := by omega
      have hn2 : n ≠ s.q.info.head.num := by omega
      rw [fGet_fSet_ne _ _ _ _ hn1, hhn, fGet_fSet_ne _ _ _ _ hn2]
      refine hnof n ?_
      omega
    have f9 : pending ++ [it] =
        ((if s.q.info.tail.num = s.q.info.head.num + 1 then ([] : List Nat)
          else if s.q.info.tail.num = s.q.info.head.num then items s.q.info.head.num ++ [it]
          else items s.q.info.tail.num).drop s.q.info.tail.cnt) ++
        chunkCat (fun n => if n = s.q.info.head.num + 1 then ([] : List Nat)
          else if n = s.q.info.head.num then items s.q.info.head.num ++ [it] else items n)
          (s.q.info.tail.num + 1) (s.q.info.head.num + 1 - s.q.info.tail.num) := by
      have hs1 : s.q.info.head.num + 1 - s.q.info.tail.num =
          (s.q.info.head.num - s.q.info.tail.num) + 1 := by omega
      rw [hs1, chunkCat_succ_right]
      have hs2 : s.q.info.tail.num + 1 + (s.q.info.head.num - s.q.info.tail.num) =
          s.q.info.head.num + 1 := by omega
      rw [hs2, if_pos rfl, List.append_nil]
      rw [if_neg (by omega : ¬ s.q.info.tail.num = s.q.info.head.num + 1)]
      rcases Nat.lt_or_ge s.q.info.tail.num s.q.info.head.num with hTH | hTH
      · rw [if_neg (by omega : ¬ s.q.info.tail.num = s.q.info.head.num)]
        have hm : s.q.info.head.num - s.q.info.tail.num =
            (s.q.info.head.num - s.q.info.tail.num - 1) + 1 := by omega
        rw [hm, chunkCat_succ_right]
        have hlast : s.q.info.tail.num + 1 + (s.q.info.head.num - s.q.info.tail.num - 1) =
            s.q.info.head.num := by omega
        rw [hlast, if_neg (by omega : ¬ s.q.info.head.num = s.q.info.head.num + 1), if_pos rfl]
        rw [chunkCat_congr _ items _ _
          (fun k hk1 hk2 => by rw [if_neg (by omega), if_neg (by omega)])]
        rw [hpend, hm, chunkCat_succ_right, hlast]
        simp [List.append_assoc]
      · have hTH2 : s.q.info.tail.num = s.q.info.head.num := Nat.le_antisymm hle hTH
        rw [if_pos hTH2]
        have hCle : s.q.info.tail.cnt ≤ (items s.q.info.head.num).length := by
          rw [hKlen]
          exact htle hTH2
        rw [List.drop_append_of_le_length hCle]
        rw [hpend, hTH2]
        have hz : s.q.info.head.num - s.q.info.head.num = 0 := by omega
        rw [hz, chunkCat_zero, chunkCat_zero]
        simp
    have f10 : s.q.info.size + 1 = ((pending ++ [it]).length : Int) := by
      rw [hsz]
      simp
    have f11 : (0 : Nat) = (encList P (if s.q.info.head.num + 1 = s.q.info.head.num + 1
        then ([] : List Nat)
        else if s.q.info.head.num + 1 = s.q.info.head.num then items s.q.info.head.num ++ [it]
        else items (s.q.info.head.num + 1))).length := by
      rw [if_pos rfl]
      rfl
    have f12 : s.q.info.tail.off = (encList P ((if s.q.info.tail.num = s.q.info.head.num + 1
        then ([] : List Nat)
        else if s.q.info.tail.num = s.q.info.head.num then items s.q.info.head.num ++ [it]
        else items s.q.info.tail.num).take s.q.info.tail.cnt)).length := by
      rw [if_neg (by omega : ¬ s.q.info.tail.num = s.q.info.head.num + 1)]
      by_cases hTH : s.q.info.tail.num = s.q.info.head.num
      · rw [if_pos hTH]
        have hCle : s.q.info.tail.cnt ≤ (items s.q.info.head.num).length := by
          rw [hKlen]
          exact htle hTH
        rw [List.take_append_of_le_length hCle, ← hTH]
        exact htoff
      · rw [if_neg hTH]
        exact htoff
    have f18 : ((fSet (fSet s.disk.files s.q.headNum
        (encList P (items s.q.info.head.num ++ [it]))) (s.q.info.head.num + 1) []).map
          Prod.fst).Nodup :=
      fSet_nodup _ _ _ (fSet_nodup _ _ _ hnodup)
    exact ⟨⟨fun n => if n = s.q.info.head.num + 1 then ([] : List Nat)
        else if n = s.q.info.head.num then items s.q.info.head.num ++ [it] else items n,
      hcs, f2, f3, htc, f5, f6, f7, f8, f9, f10, f11, f12, htpos, rfl, htn, rfl, hto, f18⟩,
      rfl, rfl, rfl, rfl, rfl, rfl⟩
  · -- no rollover: the head chunk simply grows by one record
    have e : _put P s it =
        { q :=
            { s.q with
              info :=
                { s.q.info with
                  size := s.q.info.size + 1
                  head := ⟨s.q.info.head.num, s.q.info.head.cnt + 1,
                    (encList P (items s.q.info.head.num ++ [it])).length⟩ } }
          disk :=
            { files :=
                fSet s.disk.files s.q.headNum
                  (encList P (items s.q.info.head.num ++ [it]))
              infoFile :=
                some
                  { s.q.info with
                    size := s.q.info.size + 1
                    head := ⟨s.q.info.head.num, s.q.info.head.cnt + 1,
                      (encList P (items s.q.info.head.num ++ [it])).length⟩ } } } := by
      simp only [_put, hg, Option.getD_some, Disk.saveinfo]
      rw [← encList_snoc]
      rw [if_neg hroll]
    rw [e]
    have f3 : s.q.info.head.cnt + 1 < s.q.info.chunksize := by omega
    have f5 : s.q.info.tail.num = s.q.info.head.num → s.q.info.tail.cnt ≤ s.q.info.head.cnt + 1 :=
      fun hh => Nat.le_succ_of_le (htle hh)
    have f6 : ∀ n, s.q.info.tail.num ≤ n → n ≤ s.q.info.head.num →
        ((if n = s.q.info.head.num then items s.q.info.head.num ++ [it] else items n)).length =
        (if n = s.q.info.head.num then s.q.info.head.cnt + 1 else s.q.info.chunksize) := by
      intro n h1 h2
      by_cases hn : n = s.q.info.head.num
      · rw [if_pos hn, if_pos hn, List.length_append, hKlen]
        rfl
      · rw [if_neg hn, if_neg hn]
        have t := hlen n h1 h2
        rwa [if_neg hn] at t
    have f7 : ∀ n, s.q.info.tail.num ≤ n → n ≤ s.q.info.head.num →
        fGet (fSet s.disk.files s.q.headNum (encList P (items s.q.info.head.num ++ [it]))) n =
        some (encList P (if n = s.q.info.head.num then items s.q.info.head.num ++ [it]
          else items n)) := by
      intro n h1 h2
      by_cases hn : n = s.q.info.head.num
      · subst hn
        rw [← hhn, fGet_fSet_self, if_pos rfl]
      · rw [hhn, fGet_fSet_ne _ _ _ _ hn, if_neg hn]
        exact hfiles n h1 h2
    have f8 : ∀ n, n < s.q.info.tail.num ∨ s.q.info.head.num < n →
        fGet (fSet s.disk.files s.q.headNum
          (encList P (items s.q.info.head.num ++ [it]))) n = none := by
      intro n hn
      have hn2 : n ≠ s.q.info.head.num := by omega
      rw [hhn, fGet_fSet_ne _ _ _ _ hn2]
      exact hnof n hn
    have f9 : pending ++ [it] =
        ((if s.q.info.tail.num = s.q.info.head.num then items s.q.info.head.num ++ [it]
          else items s.q.info.tail.num).drop s.q.info.tail.cnt) ++
        chunkCat (fun n => if n = s.q.info.head.num then items s.q.info.head.num ++ [it]
          else items n)
          (s.q.info.tail.num + 1) (s.q.info.head.num - s.q.info.tail.num) := by
      rcases Nat.lt_or_ge s.q.info.tail.num s.q.info.head.num with hTH | hTH
      · rw [if_neg (by omega : ¬ s.q.info.tail.num = s.q.info.head.num)]
        have hm : s.q.info.head.num - s.q.info.tail.num =
            (s.q.info.head.num - s.q.info.tail.num - 1) + 1 := by omega
        rw [hm, chunkCat_succ_right]
        have hlast : s.q.info.tail.num + 1 + (s.q.info.head.num - s.q.info.tail.num - 1) =
            s.q.info.head.num := by omega
        rw [hlast, if_pos rfl]
        rw [chunkCat_congr _ items _ _
          (fun k hk1 hk2 => by rw [if_neg (by omega)])]
        rw [hpend, hm, chunkCat_succ_right, hlast]
        simp [List.append_assoc]
      · have hTH2 : s.q.info.tail.num = s.q.info.head.num := Nat.le_antisymm hle hTH
        rw [if_pos hTH2]
        have hCle : s.q.info.tail.cnt ≤ (items s.q.info.head.num).length := by
          rw [hKlen]
          exact htle hTH2
        rw [List.drop_append_of_le_length hCle]
        rw [hpend, hTH2]
        have hz : s.q.info.head.num - s.q.info.head.num = 0 := by omega
        rw [hz, chunkCat_zero, chunkCat_zero]
        simp
    have f10 : s.q.info.size + 1 = ((pending ++ [it]).length : Int) := by
      rw [hsz]
      simp
    have f11 : (encList P (items s.q.info.head.num ++ [it])).length =
        (encList P (if s.q.info.head.num = s.q.info.head.num
          then items s.q.info.head.num ++ [it] else items s.q.info.head.num)).length := by
      rw [if_pos rfl]
    have f12 : s.q.info.tail.off = (encList P ((if s.q.info.tail.num = s.q.info.head.num
        then items s.q.info.head.num ++ [it]
        else items s.q.info.tail.num).take s.q.info.tail.cnt)).length := by
      by_cases hTH : s.q.info.tail.num = s.q.info.head.num
      · rw [if_pos hTH]
        have hCle : s.q.info.tail.cnt ≤ (items s.q.info.head.num).length := by
          rw [hKlen]
          exact htle hTH
        rw [List.take_append_of_le_length hCle, ← hTH]
        exact htoff
      · rw [if_neg hTH]
        exact htoff
    have f18 : ((fSet s.disk.files s.q.headNum
        (encList P (items s.q.info.head.num ++ [it]))).map Prod.fst).Nodup :=
      fSet_nodup _ _ _ hnodup
    exact ⟨⟨fun n => if n = s.q.info.head.num then items s.q.info.head.num ++ [it] else items n,
      hcs, hle, f3, htc, f5, f6, f7, f8, f9, f10, f11, f12, htpos, hhn, htn, hho, hto, f18⟩,
      rfl, rfl, rfl, rfl, rfl, rfl⟩

/-- Effect of a successful `_get` on a well-formed non-empty state: the
front record comes back, the tail advances, a fully drained tail chunk is
deleted (and only then is any file deleted), and the representation
invariant carries over to the remaining records. -/
theorem _get_spec (P : Pickle) (s : Sys) (items : Nat → List Nat) (v : Nat) (pending : List Nat)
    (h : RepWith P s items (v :: pending)) :
    ∃ s', _get P s = some (some v, s') ∧ Rep P s' pending ∧
      s'.disk.infoFile = s.disk.infoFile ∧
      s'.q.info.chunksize = s.q.info.chunksize ∧
      s'.q.maxsize = s.q.maxsize ∧
      s'.q.unfinished = s.q.unfinished ∧
      s'.q.update_info = true ∧
      s'.q.info.size = s.q.info.size - 1 ∧
      s'.q.info.head = s.q.info.head ∧
      (∀ n g, fGet s'.disk.files n = none → fGet s.disk.files n = some g →
        n = s.q.info.tail.num ∧ s.q.info.tail.cnt + 1 = s.q.info.chunksize ∧
          n ≤ s.q.info.head.num) ∧
      (s.q.info.tail.cnt + 1 = s.q.info.chunksize →
        fGet s'.disk.files s.q.info.tail.num = none) := by
  obtain ⟨hcs, hle, hhc, htc, htle, hlen, hfiles, hnof, hpend, hsz, hhoff, htoff, htpos,
    hhn, htn, hho, hto, hnodup⟩ := h
  have hLT : (items s.q.info.tail.num).length =
      (if s.q.info.tail.num = s.q.info.head.num then s.q.info.head.cnt
       else s.q.info.chunksize) :=
    hlen _ (Nat.le_refl _) hle
  have hCltK : s.q.info.tail.num = s.q.info.head.num →
      s.q.info.tail.cnt < s.q.info.head.cnt := by
    intro hTH
    rw [if_pos hTH] at hLT
    have hz : s.q.info.head.num - s.q.info.tail.num = 0 := by omega
    have hp2 := hpend
    rw [hz, chunkCat_zero, List.append_nil] at hp2
    have hlen2 := congrArg List.length hp2
    rw [List.length_drop] at hlen2
    simp only [List.length_cons] at hlen2
    omega
  have hClt : s.q.info.tail.cnt < (items s.q.info.tail.num).length := by
    by_cases hTH : s.q.info.tail.num = s.q.info.head.num
    · rw [if_pos hTH] at hLT
      rw [hLT]
      exact hCltK hTH
    · rw [if_neg hTH] at hLT
      rw [hLT]
      exact htc
  have hguard : ¬ (s.q.info.head.num < s.q.info.tail.num ∨
      (s.q.info.tail.num = s.q.info.head.num ∧
        s.q.info.head.cnt ≤ s.q.info.tail.cnt)) := by
    rintro (hcase | ⟨hTH, hKC⟩)
    · omega
    · exact absurd hKC (by have := hCltK hTH; omega)
  have hsplitC := List.drop_eq_getElem_cons hClt
  have hp3 : v :: pending =
      (items s.q.info.tail.num)[s.q.info.tail.cnt] ::
        ((items s.q.info.tail.num).drop (s.q.info.tail.cnt + 1) ++
          chunkCat items (s.q.info.tail.num + 1)
            (s.q.info.head.num - s.q.info.tail.num)) := by
    rw [hpend, hsplitC, List.cons_append]
  have hv : v = (items s.q.info.tail.num)[s.q.info.tail.cnt] := by
    injection hp3
  have hp4 : pending = (items s.q.info.tail.num).drop (s.q.info.tail.cnt + 1) ++
      chunkCat items (s.q.info.tail.num + 1) (s.q.info.head.num - s.q.info.tail.num) := by
    injection hp3 with h1 h2
  have hcg : fGet s.disk.files s.q.tailNum =
      some (encList P (items s.q.info.tail.num)) := by
    rw [htn]
    exact hfiles _ (Nat.le_refl _) hle
  have hdec : P.dec ((encList P (items s.q.info.tail.num)).drop s.q.tailPos) =
      some (v, encList P ((items s.q.info.tail.num).drop (s.q.info.tail.cnt + 1))) := by
    rw [htpos, htoff]
    conv_lhs => rw [show encList P (items s.q.info.tail.num) =
      encList P ((items s.q.info.tail.num).take s.q.info.tail.cnt) ++
        encList P ((items s.q.info.tail.num).drop s.q.info.tail.cnt) from by
          rw [← encList_append, List.take_append_drop]]
    rw [List.drop_left]
    rw [hsplitC, ← hv, encList_cons]
    exact P.dec_enc v _
  have htoffval : (encList P (items s.q.info.tail.num)).length -
      (encList P ((items s.q.info.tail.num).drop (s.q.info.tail.cnt + 1))).length =
      (encList P ((items s.q.info.tail.num).take (s.q.info.tail.cnt + 1))).length := by
    conv_lhs => rw [show encList P (items s.q.info.tail.num) =
      encList P ((items s.q.info.tail.num).take (s.q.info.tail.cnt + 1)) ++
        encList P ((items s.q.info.tail.num).drop (s.q.info.tail.cnt + 1)) from by
          rw [← encList_append, List.take_append_drop]]
    rw [List.length_append, Nat.add_sub_cancel]
  have hszlen : s.q.info.size = (pending.length : Int) + 1 := by
    rw [hsz]
    simp
  by_cases hdrain : s.q.info.tail.cnt + 1 = s.q.info.chunksize
  · -- the tail chunk is fully drained: it is removed, the next chunk opened
    have hTltH : s.q.info.tail.num < s.q.info.head.num := by
      by_cases hTH : s.q.info.tail.num = s.q.info.head.num
      · exact absurd hdrain (by have := hCltK hTH; omega)
      · omega
    have hnext : fGet (fDel s.disk.files s.q.tailNum) (s.q.info.tail.num + 1) =
        some (encList P (items (s.q.info.tail.num + 1))) := by
      rw [htn, fGet_fDel_ne _ _ _ (by omega)]
      exact hfiles _ (by omega) (by omega)
    have e : _get P s = some (some v,
        { q :=
            { s.q with
              info :=
                { s.q.info with
                  size := s.q.info.size - 1
                  tail := ⟨s.q.info.tail.num + 1, 0, 0⟩ }
              tailNum := s.q.info.tail.num + 1
              tailPos := 0
              tailOpen := true
              update_info := true }
          disk :=
            { files := fDel s.disk.files s.q.tailNum
              infoFile := s.disk.infoFile } }) := by
      simp only [_get]
      rw [if_neg hguard]
      simp only [hcg, Option.getD_some, hdec]
      rw [if_pos ⟨hdrain, hle⟩]
      simp only [hnext]
    have g2 : s.q.info.tail.num + 1 ≤ s.q.info.head.num := by omega
    refine ⟨_, e, ⟨items, hcs, g2, hhc, hcs, fun _ => Nat.zero_le _, ?_, ?_, ?_, ?_, ?_,
      hhoff, rfl, rfl, hhn, rfl, hho, rfl, fDel_nodup _ _ hnodup⟩,
      rfl, rfl, rfl, rfl, rfl, rfl, rfl, ?_, ?_⟩
    · -- lengths of the remaining chunks
      intro n h1 h2
      replace h1 : s.q.info.tail.num + 1 ≤ n := h1
      replace h2 : n ≤ s.q.info.head.num := h2
      exact hlen n (by omega) h2
    · -- contents of the remaining chunks
      intro n h1 h2
      replace h1 : s.q.info.tail.num + 1 ≤ n := h1
      replace h2 : n ≤ s.q.info.head.num := h2
      show fGet (fDel s.disk.files s.q.tailNum) n = some (encList P (items n))
      rw [htn, fGet_fDel_ne _ _ _ (by omega)]
      exact hfiles n (by omega) h2
    · -- no chunk outside the remaining range
      intro n hn
      replace hn : n < s.q.info.tail.num + 1 ∨ s.q.info.head.num < n := hn
      show fGet (fDel s.disk.files s.q.tailNum) n = none
      by_cases hnT : n = s.q.info.tail.num
      · subst hnT
        rw [htn]
        exact fGet_fDel_self _ _ hnodup
      · rw [htn, fGet_fDel_ne _ _ _ hnT]
        exact hnof n (by omega)
    · -- the pending records of the new state
      have hfull : (items s.q.info.tail.num).length = s.q.info.tail.cnt + 1 := by
        rw [if_neg (by omega)] at hLT
        omega
      have hdropnil : (items s.q.info.tail.num).drop (s.q.info.tail.cnt + 1) = [] := by
        rw [← hfull]
        simp
      have hsplit : s.q.info.head.num - s.q.info.tail.num =
          (s.q.info.head.num - (s.q.info.tail.num + 1)) + 1 := by omega
      show pending = (items (s.q.info.tail.num + 1)).drop 0 ++
        chunkCat items (s.q.info.tail.num + 1 + 1)
          (s.q.info.head.num - (s.q.info.tail.num + 1))
      rw [hp4, hdropnil, List.nil_append, List.drop_zero, hsplit, chunkCat_succ]
    · -- size accounting
      show s.q.info.size - 1 = (pending.length : Int)
      rw [hszlen]
      simp
    · -- only the drained tail chunk was removed
      intro n g hnone hsome
      replace hnone : fGet (fDel s.disk.files s.q.tailNum) n = none := hnone
      by_cases hnT : n = s.q.info.tail.num
      · exact ⟨hnT, hdrain, by omega⟩
      · rw [htn, fGet_fDel_ne _ _ _ hnT] at hnone
        rw [hnone] at hsome
        cases hsome
    · -- and it was indeed removed
      intro _
      show fGet (fDel s.disk.files s.q.tailNum) s.q.info.tail.num = none
      rw [htn]
      exact fGet_fDel_self _ _ hnodup
  · -- tail chunk not yet drained: only the tail cursor advances
    have e : _get P s = some (some v,
        { q :=
            { s.q with
              info :=
                { s.q.info with
                  size := s.q.info.size - 1
                  tail := ⟨s.q.info.tail.num, s.q.info.tail.cnt + 1,
                    (encList P ((items s.q.info.tail.num).take
                      (s.q.info.tail.cnt + 1))).length⟩ }
              tailPos := (encList P ((items s.q.info.tail.num).take
                (s.q.info.tail.cnt + 1))).length
              update_info := true }
          disk := s.disk }) := by
      simp only [_get]
      rw [if_neg hguard]
      simp only [hcg, Option.getD_some, hdec]
      rw [if_neg (fun hc => hdrain hc.1)]
      rw [htoffval]
    have g4 : s.q.info.tail.cnt + 1 < s.q.info.chunksize := by omega
    refine ⟨_, e, ⟨items, hcs, hle, hhc, g4, ?_, hlen, hfiles, hnof, ?_, ?_,
      hhoff, rfl, rfl, hhn, htn, hho, hto, hnodup⟩,
      rfl, rfl, rfl, rfl, rfl, rfl, rfl, ?_, ?_⟩
    · -- tail count stays within the head chunk when both cursors share it
      intro hTH
      replace hTH : s.q.info.tail.num = s.q.info.head.num := hTH
      show s.q.info.tail.cnt + 1 ≤ s.q.info.head.cnt
      have := hCltK hTH
      omega
    · -- the pending records of the new state
      exact hp4
    · -- size accounting
      show s.q.info.size - 1 = (pending.length : Int)
      rw [hszlen]
      simp
    · -- no file was removed
      intro n g hnone hsome
      replace hnone : fGet s.disk.files n = none := hnone
      rw [hnone] at hsome
      cases hsome
    · -- the drained case does not apply here
      intro hc
      exact absurd hc hdrain

/-- A successful non-blocking `put` on a well-formed state: the capacity
guard passes, `_put` runs, `unfinished_tasks` is incremented. -/
theorem put_step (P : Pickle) (s : Sys) (items : Nat → List Nat) (pending : List Nat) (it : Nat)
    (h : RepWith P s items pending)
    (hfull : ¬ (0 < s.q.maxsize ∧ s.q.maxsize ≤ s.q.info.size)) :
    ∃ s', put_nowait P s it = (Except.ok (), s') ∧ Rep P s' (pending ++ [it]) ∧
      s'.disk.infoFile = some s'.q.info ∧
      s'.q.info.chunksize = s.q.info.chunksize ∧
      s'.q.maxsize = s.q.maxsize ∧
      s'.q.unfinished = s.q.unfinished + 1 ∧
      s'.q.info.size = s.q.info.size + 1 := by
  obtain ⟨⟨items1, hrep1⟩, hinfo, hcsz, hms, hunf, hupd, hsize⟩ := _put_spec P s items pending it h
  refine ⟨_, ?_, ⟨items1, rep_unfin P (_put P s it) items1 (pending ++ [it])
    ((_put P s it).q.unfinished + 1) hrep1⟩, ?_, ?_, ?_, ?_, ?_⟩
  · simp only [put_nowait]
    rw [if_neg hfull]
  · exact hinfo
  · exact hcsz
  · exact hms
  · show (_put P s it).q.unfinished + 1 = s.q.unfinished + 1
    rw [hunf]
  · exact hsize

/-- A successful non-blocking `get` on a well-formed non-empty state. -/
theorem get_step (P : Pickle) (s : Sys) (items : Nat → List Nat) (v : Nat) (pending : List Nat)
    (h : RepWith P s items (v :: pending)) :
    ∃ s', get_nowait P s = some (Except.ok (some v), s') ∧ Rep P s' pending ∧
      s'.disk.infoFile = s.disk.infoFile ∧
      s'.q.info.chunksize = s.q.info.chunksize ∧
      s'.q.maxsize = s.q.maxsize ∧
      s'.q.unfinished = s.q.unfinished ∧
      s'.q.info.size = s.q.info.size - 1 := by
  have hsznz : ¬ (s.q.info.size = 0) := by
    rw [h.hsz]
    simp only [List.length_cons]
    omega
  obtain ⟨s', he, hrep, h3, h4, h5, h6, h7, h8, h9, h10, h11⟩ := _get_spec P s items v pending h
  refine ⟨s', ?_, hrep, h3, h4, h5, h6, h8⟩
  simp only [get_nowait]
  rw [if_neg hsznz, he]

/-- A non-blocking `get` on a well-formed empty state raises `Empty` and
leaves the state untouched. -/
theorem get_empty (P : Pickle) (s : Sys) (items : Nat → List Nat)
    (h : RepWith P s items []) :
    get_nowait P s = some (Except.error QErr.empty, s) := by
  have hz : s.q.info.size = 0 := by
    have t := h.hsz
    simpa using t
  simp only [get_nowait]
  rw [if_pos hz]

/-- Behaviour of `task_done` when it succeeds with a dirty metadata flag:
decrement, persist, clear. -/
theorem task_done_eq_pos (s : Sys) (hv : ¬ s.q.unfinished - 1 < 0)
    (hd : s.q.update_info = true) :
    task_done s = (Except.ok (),
      { q := { s.q with unfinished := s.q.unfinished - 1, update_info := false }
        disk := Disk.saveinfo s.disk s.q.info }) := by
  simp only [task_done]
  rw [if_neg hv]
  simp [hd]

/-- Behaviour of `task_done` when it succeeds with a clean metadata flag:
decrement only. -/
theorem task_done_eq_neg (s : Sys) (hv : ¬ s.q.unfinished - 1 < 0)
    (hd : s.q.update_info = false) :
    task_done s = (Except.ok (), { s with q := { s.q with unfinished := s.q.unfinished - 1 } }) := by
  simp only [task_done]
  rw [if_neg hv]
  simp [hd]

/-- Behaviour of `task_done` when over-called: `ValueError` with nothing
mutated and nothing persisted. -/
theorem task_done_err (s : Sys) (hv : s.q.unfinished - 1 < 0) :
    task_done s = (Except.error QErr.invalidAck, s) := by
  simp only [task_done]
  rw [if_pos hv]

/-- `task_done` preserves the representation invariant in every branch. -/
theorem task_done_rep (P : Pickle) (s : Sys) (items : Nat → List Nat) (pending : List Nat)
    (h : RepWith P s items pending) : Rep P (task_done s).2 pending := by
  by_cases hv : s.q.unfinished - 1 < 0
  · rw [task_done_err s hv]
    exact ⟨items, h⟩
  · by_cases hd : s.q.update_info = true
    · rw [task_done_eq_pos s hv hd]
      exact ⟨items, rep_save P { s with q := { s.q with unfinished := s.q.unfinished - 1 } }
        items pending false s.q.info (rep_unfin P s items pending (s.q.unfinished - 1) h)⟩
    · rw [task_done_eq_neg s hv (by simpa using hd)]
      exact ⟨items, rep_unfin P s items pending (s.q.unfinished - 1) h⟩

/-- `task_done` never changes the metadata values, the capacity, or the
chunk files on disk. -/
theorem task_done_frame (s : Sys) :
    (task_done s).2.q.info = s.q.info ∧ (task_done s).2.q.maxsize = s.q.maxsize ∧
    (task_done s).2.disk.files = s.disk.files := by
  by_cases hv : s.q.unfinished - 1 < 0
  · rw [task_done_err s hv]
    exact ⟨rfl, rfl, rfl⟩
  · by_cases hd : s.q.update_info = true
    · rw [task_done_eq_pos s hv hd]
      exact ⟨rfl, rfl, rfl⟩
    · rw [task_done_eq_neg s hv (by simpa using hd)]
      exact ⟨rfl, rfl, rfl⟩

/-- Global invariant of reachable states: some pending-record list is
represented, the configured capacity bound is respected, and the
configuration is what the constructor received. -/
def GInv (P : Pickle) (ms : Int) (cs : Nat) (s : Sys) : Prop :=
  ∃ pending, Rep P s pending ∧ (0 < ms → s.q.info.size ≤ ms) ∧ s.q.maxsize = ms ∧
    s.q.info.chunksize = cs

/-- Every state reachable from a fresh queue satisfies the global
invariant. -/
theorem reach_inv (P : Pickle) (ms : Int) (cs : Nat) (hcs : 1 ≤ cs) :
    ∀ s, Reach P ms cs s → GInv P ms cs s := by
  intro s hr
  induction hr with
  | init s h =>
      obtain ⟨hrep, hinfo, _, hms, _, _⟩ := rep_fresh P ms cs s hcs h
      refine ⟨[], hrep, ?_, hms, ?_⟩
      · intro hp
        rw [hinfo]
        show (0 : Int) ≤ ms
        omega
      · rw [hinfo]
        rfl
  | put s it s' _ heq ih =>
      obtain ⟨pending, ⟨items, hrep⟩, hbound, hms, hcsz⟩ := ih
      have hfull : ¬ (0 < s.q.maxsize ∧ s.q.maxsize ≤ s.q.info.size) := by
        intro hc
        have hput : put_nowait P s it = (Except.error QErr.full, s) := by
          simp only [put_nowait]
          rw [if_pos hc]
        rw [hput] at heq
        have := congrArg Prod.fst heq
        simp at this
      obtain ⟨s2, he2, hrep2, _, hcsz2, hms2, _, hsz2⟩ := put_step P s items pending it hrep hfull
      have hs2 : s2 = s' := by
        rw [he2] at heq
        have := congrArg Prod.snd heq
        simpa using this
      subst hs2
      refine ⟨pending ++ [it], hrep2, ?_, by rw [hms2, hms], by rw [hcsz2, hcsz]⟩
      intro hmspos
      rw [hsz2]
      have := hbound hmspos
      rw [hms] at hfull
      by_cases hlt : s.q.info.size < ms
      · omega
      · exact absurd ⟨hmspos, by omega⟩ hfull
  | get s v s' _ heq ih =>
      obtain ⟨pending, ⟨items, hrep⟩, hbound, hms, hcsz⟩ := ih
      cases pending with
      | nil =>
          rw [get_empty P s items hrep] at heq
          have := congrArg Prod.fst (Option.some.inj heq)
          simp at this
      | cons v0 rest =>
          obtain ⟨s2, he2, hrep2, _, hcsz2, hms2, _, hsz2⟩ := get_step P s items v0 rest hrep
          have hs2 : s2 = s' := by
            rw [he2] at heq
            have := congrArg Prod.snd (Option.some.inj heq)
            simpa using this
          subst hs2
          refine ⟨rest, hrep2, ?_, by rw [hms2, hms], by rw [hcsz2, hcsz]⟩
          intro hmspos
          rw [hsz2]
          have := hbound hmspos
          omega
  | done s s' _ heq ih =>
      obtain ⟨pending, ⟨items, hrep⟩, hbound, hms, hcsz⟩ := ih
      have hs' : (task_done s).2 = s' := by
        have := congrArg Prod.snd heq
        simpa using this
      subst hs'
      obtain ⟨hinfo, hmax, _⟩ := task_done_frame s
      refine ⟨pending, task_done_rep P s items pending hrep, ?_, by rw [hmax, hms],
        by rw [hinfo, hcsz]⟩
      intro hmspos
      rw [hinfo]
      exact hbound hmspos

/-- Assembling the state built by `openQueue` from a disk whose chunk files
already match a representation: the invariant fields carry over. -/
theorem rep_of_open (P : Pickle) (s : Sys) (items : Nat → List Nat) (pending : List Nat)
    (ms : Int) (inf2 : Option Info) (files2 : List (Nat × File))
    (h : RepWith P s items pending)
    (hfg : ∀ n, s.q.info.tail.num ≤ n → n ≤ s.q.info.head.num →
      fGet files2 n = some (encList P (items n)))
    (hfnone : ∀ n, n < s.q.info.tail.num ∨ s.q.info.head.num < n → fGet files2 n = none)
    (hnd : (files2.map Prod.fst).Nodup) :
    RepWith P
      { q :=
          { maxsize := ms
            info := s.q.info
            headNum := s.q.info.head.num
            tailNum := s.q.info.tail.num
            tailPos := s.q.info.tail.off
            headOpen := true
            tailOpen := true
            unfinished := s.q.info.size
            update_info := true }
        disk := { files := files2, infoFile := inf2 } } items pending :=
  ⟨h.hcs, h.hle, h.hhc, h.htc, h.htle, h.hlen, hfg, hfnone, h.hpend, h.hsz, h.hhoff,
    h.htoff, rfl, rfl, rfl, rfl, rfl, hnd⟩

/-- Crash-recovery reopen: running the open procedure on a disk holding a
well-formed queue's files — possibly with arbitrary extra bytes appended to
the head chunk — truncates the garbage away and reproduces a state
representing exactly the same pending records. -/
theorem reopen_rep (P : Pickle) (s : Sys) (items : Nat → List Nat) (pending : List Nat)
    (ms : Int) (cs : Nat) (d' : Disk) (junk : List Nat)
    (h : RepWith P s items pending)
    (hinfo : d'.infoFile = some s.q.info ∨ (d'.infoFile = none ∧ s.q.info = defaultInfo cs))
    (hhead : fGet d'.files s.q.info.head.num =
      some (encList P (items s.q.info.head.num) ++ junk))
    (hother : ∀ n, n ≠ s.q.info.head.num → fGet d'.files n = fGet s.disk.files n)
    (hnodup' : (d'.files.map Prod.fst).Nodup) :
    ∃ s2, openQueue ms cs d' = some s2 ∧ RepWith P s2 items pending ∧
      s2.q.info = s.q.info ∧ s2.q.maxsize = ms ∧ s2.q.unfinished = s.q.info.size ∧
      s2.q.update_info = true ∧ s2.disk.infoFile = d'.infoFile := by
  have hH : d'.infoFile.getD (defaultInfo cs) = s.q.info := by
    rcases hinfo with h1 | ⟨h1, h2⟩
    · rw [h1]
      rfl
    · rw [h1]
      exact h2.symm
  obtain ⟨files1, he1, hprop1, hprop2, hprop3⟩ :
      ∃ files1,
        (if s.q.info.head.off < (encList P (items s.q.info.head.num) ++ junk).length
         then fSet d'.files s.q.info.head.num
           ((encList P (items s.q.info.head.num) ++ junk).take s.q.info.head.off)
         else d'.files) = files1 ∧
        fGet files1 s.q.info.head.num = some (encList P (items s.q.info.head.num)) ∧
        (∀ n, n ≠ s.q.info.head.num → fGet files1 n = fGet d'.files n) ∧
        ((files1.map Prod.fst).Nodup) := by
    by_cases hjunk : junk = []
    · subst hjunk
      have hnlt : ¬ (s.q.info.head.off <
          (encList P (items s.q.info.head.num) ++ ([] : List Nat)).length) := by
        rw [h.hhoff]
        simp
      refine ⟨d'.files, by rw [if_neg hnlt], ?_, fun n _ => rfl, hnodup'⟩
      rw [hhead]
      simp
    · have hlt : s.q.info.head.off <
          (encList P (items s.q.info.head.num) ++ junk).length := by
        rw [h.hhoff, List.length_append]
        have := List.length_pos.mpr hjunk
        omega
      have htk : (encList P (items s.q.info.head.num) ++ junk).take s.q.info.head.off =
          encList P (items s.q.info.head.num) := by
        rw [h.hhoff]
        exact List.take_left _ _
      refine ⟨fSet d'.files s.q.info.head.num (encList P (items s.q.info.head.num)),
        by rw [if_pos hlt, htk], ?_, ?_, fSet_nodup _ _ _ hnodup'⟩
      · rw [fGet_fSet_self]
      · intro n hn
        exact fGet_fSet_ne _ _ _ _ hn
  have hT : fGet files1 s.q.info.tail.num = some (encList P (items s.q.info.tail.num)) := by
    by_cases hTH : s.q.info.tail.num = s.q.info.head.num
    · rw [hTH]
      exact hprop1
    · rw [hprop2 _ hTH, hother _ hTH]
      exact h.hfiles _ (Nat.le_refl _) h.hle
  have e : openQueue ms cs d' = some
      { q :=
          { maxsize := ms
            info := s.q.info
            headNum := s.q.info.head.num
            tailNum := s.q.info.tail.num
            tailPos := s.q.info.tail.off
            headOpen := true
            tailOpen := true
            unfinished := s.q.info.size
            update_info := true }
        disk := { files := files1, infoFile := d'.infoFile } } := by
    simp only [openQueue, hH, hhead]
    rw [he1, touch_of_some _ _ _ hprop1]
    simp only [hT]
  refine ⟨_, e, ?_, rfl, rfl, rfl, rfl, rfl⟩
  refine rep_of_open P s items pending ms d'.infoFile files1 h ?_ ?_ hprop3
  · intro n h1 h2
    by_cases hn : n = s.q.info.head.num
    · rw [hn]
      exact hprop1
    · rw [hprop2 _ hn, hother _ hn]
      exact h.hfiles n h1 h2
  · intro n hn
    have hnH : n ≠ s.q.info.head.num := by
      have := h.hle
      omega
    rw [hprop2 _ hnH, hother _ hnH]
    exact h.hnof n hn

/-- Consecutive successful `put_nowait` calls on an unbounded queue append
their items in order, leaving the metadata file freshly persisted. -/
theorem putAll_rep (P : Pickle) (L : List Nat) : ∀ (s : Sys) (items : Nat → List Nat)
    (pending : List Nat), RepWith P s items pending → s.q.maxsize ≤ 0 →
    ∃ s1, putAll P L s = some s1 ∧ Rep P s1 (pending ++ L) ∧
      s1.q.info.chunksize = s.q.info.chunksize ∧ s1.q.maxsize = s.q.maxsize ∧
      (L = [] → s1 = s) ∧ (L ≠ [] → s1.disk.infoFile = some s1.q.info) := by
  induction L with
  | nil =>
      intro s items pending h hms
      exact ⟨s, rfl, ⟨items, by rw [List.append_nil]; exact h⟩, rfl, rfl, fun _ => rfl,
        fun hne => absurd rfl hne⟩
  | cons x xs ih =>
      intro s items pending h hms
      have hfull : ¬ (0 < s.q.maxsize ∧ s.q.maxsize ≤ s.q.info.size) := by
        intro hc
        omega
      obtain ⟨s2, he2, ⟨items2, hrep2⟩, hinfo2, hcs2, hms2, _, _⟩ :=
        put_step P s items pending x h hfull
      obtain ⟨s3, he3, hrep3, hcs3, hms3, hnil3, hinfo3⟩ :=
        ih s2 items2 (pending ++ [x]) hrep2 (by rw [hms2]; exact hms)
      refine ⟨s3, ?_, ?_, by rw [hcs3, hcs2], by rw [hms3, hms2],
        fun hx => absurd hx (List.cons_ne_nil x xs), ?_⟩
      · simp only [putAll, he2]
        exact he3
      · obtain ⟨items3, hr3⟩ := hrep3
        exact ⟨items3, by rwa [List.append_assoc, List.singleton_append] at hr3⟩
      · intro _
        by_cases hxs : xs = []
        · subst hxs
          rw [hnil3 rfl]
          exact hinfo2
        · exact hinfo3 hxs

/-- Draining a well-formed queue returns exactly its pending records, in
order, and leaves it empty. -/
theorem drain_rep (P : Pickle) : ∀ (pending : List Nat) (s : Sys) (items : Nat → List Nat),
    RepWith P s items pending →
    ∃ s1, drain P pending.length s = some (pending, s1) ∧ Rep P s1 [] ∧
      s1.q.info.chunksize = s.q.info.chunksize ∧ s1.q.maxsize = s.q.maxsize := by
  intro pending
  induction pending with
  | nil =>
      intro s items h
      exact ⟨s, rfl, ⟨items, h⟩, rfl, rfl⟩
  | cons v rest ih =>
      intro s items h
      obtain ⟨s2, he2, ⟨items2, hrep2⟩, _, hcs2, hms2, _, _⟩ := get_step P s items v rest h
      obtain ⟨s3, he3, hrep3, hcs3, hms3⟩ := ih s2 items2 hrep2
      refine ⟨s3, ?_, hrep3, by rw [hcs3, hcs2], by rw [hms3, hms2]⟩
      simp only [List.length_cons, drain, he2, he3]

/-- Fields `_put` never touches, and the size increment it always makes,
on any state. -/
theorem _put_fields (P : Pickle) (s : Sys) (it : Nat) :
    (_put P s it).q.unfinished = s.q.unfinished ∧
    (_put P s it).q.update_info = s.q.update_info ∧
    (_put P s it).q.maxsize = s.q.maxsize ∧
    (_put P s it).q.info.size = s.q.info.size + 1 ∧
    (_put P s it).q.info.tail = s.q.info.tail := by
  unfold _put
  dsimp only
  split
  · exact ⟨rfl, rfl, rfl, rfl, rfl⟩
  · exact ⟨rfl, rfl, rfl, rfl, rfl⟩

/-- Inversion of a successful non-blocking `put`: the capacity guard was
passed and the result is `_put` plus the `unfinished_tasks` increment. -/
theorem put_nowait_ok (P : Pickle) (s : Sys) (it : Nat) (s' : Sys)
    (h : put_nowait P s it = (Except.ok (), s')) :
    s' = { _put P s it with
           q := { (_put P s it).q with unfinished := (_put P s it).q.unfinished + 1 } } ∧
    ¬ (0 < s.q.maxsize ∧ s.q.maxsize ≤ s.q.info.size) := by
  by_cases hfull : 0 < s.q.maxsize ∧ s.q.maxsize ≤ s.q.info.size
  · rw [show put_nowait P s it = (Except.error QErr.full, s) from by
      simp only [put_nowait]; rw [if_pos hfull]] at h
    have := congrArg Prod.fst h
    simp at this
  · rw [show put_nowait P s it =
        (Except.ok (), { _put P s it with
          q := { (_put P s it).q with
                 unfinished := (_put P s it).q.unfinished + 1 } }) from by
      simp only [put_nowait]; rw [if_neg hfull]] at h
    exact ⟨(congrArg Prod.snd h).symm, hfull⟩

/-- Fields `_get` never touches when it returns a record, and the effects
it always applies: size decrement, dirty flag set, metadata file on disk
untouched. -/
theorem _get_frame (P : Pickle) (s : Sys) (v : Nat) (s' : Sys)
    (h : _get P s = some (some v, s')) :
    s'.disk.infoFile = s.disk.infoFile ∧ s'.q.update_info = true ∧
    s'.q.unfinished = s.q.unfinished ∧ s'.q.maxsize = s.q.maxsize ∧
    s'.q.info.size = s.q.info.size - 1 ∧ s'.q.info.head = s.q.info.head ∧
    s'.q.info.chunksize = s.q.info.chunksize := by
  unfold _get at h
  dsimp only at h
  split at h
  · have := congrArg Prod.fst (Option.some.inj h)
    simp at this
  · rcases hdec : P.dec (((fGet s.disk.files s.q.tailNum).getD []).drop s.q.tailPos)
      with _ | ⟨v2, rest⟩
    · rw [hdec] at h
      cases h
    · rw [hdec] at h
      dsimp only at h
      split at h
      · rcases hnx : fGet (fDel s.disk.files s.q.tailNum) (s.q.info.tail.num + 1) with _ | f2
        · rw [hnx] at h
          cases h
        · rw [hnx] at h
          injection Option.some.inj h with h1 h2
          rw [← h2]
          exact ⟨rfl, rfl, rfl, rfl, rfl, rfl, rfl⟩
      · injection Option.some.inj h with h1 h2
        rw [← h2]
        exact ⟨rfl, rfl, rfl, rfl, rfl, rfl, rfl⟩

/-- Inversion of a successful non-blocking `get` that returned a record:
the emptiness guard was passed and `_get` produced the result. -/
theorem get_nowait_ok (P : Pickle) (s : Sys) (v : Option Nat) (s' : Sys)
    (h : get_nowait P s = some (Except.ok v, s')) :
    _get P s = some (v, s') ∧ ¬ s.q.info.size = 0 := by
  by_cases hz : s.q.info.size = 0
  · rw [show get_nowait P s = some (Except.error QErr.empty, s) from by
      simp only [get_nowait]; rw [if_pos hz]] at h
    have := congrArg Prod.fst (Option.some.inj h)
    simp at this
  · refine ⟨?_, hz⟩
    rcases hg : _get P s with _ | ⟨v2, s2⟩
    · have hgn : get_nowait P s = none := by
        simp only [get_nowait, hg]
        rw [if_neg hz]
      rw [hgn] at h
      cases h
    · have hgn : get_nowait P s = some (Except.ok v2, s2) := by
        simp only [get_nowait, hg]
        rw [if_neg hz]
      rw [hgn] at h
      injection Option.some.inj h with h1 h2
      injection h1 with hv2
      rw [hv2, h2]

/-- The persisted size of a well-formed queue equals the number of records
between the tail and head cursors, counted lexicographically. -/
theorem rep_size_formula (P : Pickle) (s : Sys) (items : Nat → List Nat) (pending : List Nat)
    (h : RepWith P s items pending) :
    s.q.info.size = ((s.q.info.head.num : Int) - s.q.info.tail.num) * s.q.info.chunksize
      + s.q.info.head.cnt - s.q.info.tail.cnt := by
  have hTrow : (items s.q.info.tail.num).length =
      (if s.q.info.tail.num = s.q.info.head.num then s.q.info.head.cnt
       else s.q.info.chunksize) := h.hlen _ (Nat.le_refl _) h.hle
  rw [h.hsz, h.hpend]
  rcases Nat.lt_or_ge s.q.info.tail.num s.q.info.head.num with hTH | hTH
  · obtain ⟨m, hm⟩ : ∃ m, s.q.info.head.num - s.q.info.tail.num = m + 1 :=
      ⟨s.q.info.head.num - s.q.info.tail.num - 1, by omega⟩
    rw [if_neg (by omega)] at hTrow
    have hmid : (chunkCat items (s.q.info.tail.num + 1) m).length =
        m * s.q.info.chunksize := by
      refine chunkCat_length items s.q.info.chunksize _ m ?_
      intro k hk1 hk2
      have t := h.hlen k (by omega) (by omega)
      rwa [if_neg (by omega)] at t
    have hlast : (items (s.q.info.tail.num + 1 + m)).length = s.q.info.head.cnt := by
      have t := h.hlen (s.q.info.tail.num + 1 + m) (by omega) (by omega)
      rwa [if_pos (by omega)] at t
    rw [hm, chunkCat_succ_right, List.length_append, List.length_append, List.length_drop,
      hmid, hlast, hTrow]
    have hHT : (s.q.info.head.num : Int) - s.q.info.tail.num = (m : Int) + 1 := by omega
    rw [hHT]
    have hCle : s.q.info.tail.cnt ≤ s.q.info.chunksize := Nat.le_of_lt h.htc
    push_cast [Nat.cast_sub hCle]
    ring
  · have hTH2 : s.q.info.tail.num = s.q.info.head.num := Nat.le_antisymm h.hle hTH
    rw [if_pos hTH2] at hTrow
    have hz : s.q.info.head.num - s.q.info.tail.num = 0 := by omega
    rw [hz, chunkCat_zero, List.append_nil, List.length_drop, hTrow]
    have hCle : s.q.info.tail.cnt ≤ s.q.info.head.cnt := h.htle hTH2
    rw [hTH2]
    push_cast [Nat.cast_sub hCle]
    ring

/-- A concrete serializer satisfying the `pickle` contract, used to
evaluate the theorems on explicit inputs: each record is one byte. -/
def PW : Pickle where
  enc a := [a]
  dec l :=
    match l with
    | [] => none
    | b :: r => some (b, r)
  enc_ne a := by simp
  dec_enc a rest := rfl

/-- The state of a queue freshly opened on an empty directory with
`maxsize=0, chunksize=100` (the constructor defaults). -/
def s0W : Sys :=
  { q :=
      { maxsize := 0
        info := defaultInfo 100
        headNum := 0
        tailNum := 0
        tailPos := 0
        headOpen := true
        tailOpen := true
        unfinished := 0
        update_info := true }
    disk := { files := [(0, [])], infoFile := none } }

/-- The state after `put('...')` of one record (the byte `7`) on `s0W`. -/
def s1W : Sys := (put_nowait PW s0W 7).2

/-- A fresh queue with `maxsize=2, chunksize=1`. -/
def s0W1 : Sys :=
  { q :=
      { maxsize := 2
        info := defaultInfo 1
        headNum := 0
        tailNum := 0
        tailPos := 0
        headOpen := true
        tailOpen := true
        unfinished := 0
        update_info := true }
    disk := { files := [(0, [])], infoFile := none } }

/-- A fresh queue with `maxsize=1, chunksize=100`. -/
def s0Wm : Sys :=
  { q :=
      { maxsize := 1
        info := defaultInfo 100
        headNum := 0
        tailNum := 0
        tailPos := 0
        headOpen := true
        tailOpen := true
        unfinished := 0
        update_info := true }
    disk := { files := [(0, [])], infoFile := none } }

/-- The `maxsize=1` queue filled to capacity with one record. -/
def sFullW : Sys := (put_nowait PW s0Wm 7).2

/-- A fresh queue with `maxsize=0, chunksize=1`: every `put` immediately
rolls the head over into a new chunk. -/
def s0Wc1 : Sys :=
  { q :=
      { maxsize := 0
        info := defaultInfo 1
        headNum := 0
        tailNum := 0
        tailPos := 0
        headOpen := true
        tailOpen := true
        unfinished := 0
        update_info := true }
    disk := { files := [(0, [])], infoFile := none } }

/-- The state after three puts (records `3, 1, 4`) on `s0W`. -/
def Wq1 : Sys := (putAll PW [3, 1, 4] s0W).getD s0W

/-- C3 counterexample: with directory staging off (the default
`temp_subdir=False`), `_saveinfo`'s temporary file is created by
`tempfile.mkstemp(dir=None)` in the system default temporary directory,
not in the queue directory that holds the canonical `info` file — the
claimed location and the code's location differ on this input (here the
queue directory `/data/queue`, whose system temp dir is `/tmp`). -/
theorem C3_counterexample :
    saveinfoTempDir "/data/queue" false ≠ saveinfoTempDirSpec "/data/queue" false := by
  decide

/-- C3 (as amended): the metadata save serializes into a temporary file
created in the system default temporary directory — or in the `_temp`
staging subdirectory of the queue path when `temp_subdir` is configured —
and then replaces the canonical `info` file in a single atomic `os.rename`,
so the canonical path never holds partially written metadata (the metadata
file moves from old value to new value in one step). -/
theorem C3_saveinfo_staging (path : String) (tsub : Bool) (d : Disk) (i : Info) :
    saveinfoTempDir path tsub =
      (if tsub then path ++ "/" ++ TEMP_SUBDIRECTORY else defaultTempDir) ∧
    Disk.saveinfo d i = { files := d.files, infoFile := some i } := by
  constructor
  · cases tsub <;> simp [saveinfoTempDir, pathTemp]
  · rfl

/-- C4 counterexample: on a fresh queue, enqueue one item and call
`task_done()` once having never called `get()`; `task_done` succeeds even
though it has now been called more times (one) than items were retrieved
(zero) — it is bounded by items enqueued, not items retrieved. -/
theorem C4_counterexample :
    openQueue 0 100 emptyDisk = some s0W ∧
    (task_done (put_nowait PW s0W 7).2).1 = Except.ok () := by
  exact ⟨rfl, rfl⟩

/-- C4 (as amended): `task_done()` raises `ValueError` exactly when the
`unfinished_tasks` counter is not positive; that counter starts at the
persisted `size` on open, is incremented by each successful `put`, and is
left unchanged by `get` — so the failure bound is the number of items
enqueued (plus the initially persisted backlog), not the number
retrieved. -/
theorem C4_taskdone_bound (P : Pickle) (s : Sys) :
    ((task_done s).1 = Except.error QErr.invalidAck ↔ s.q.unfinished ≤ 0) ∧
    ((task_done s).1 = Except.ok () ↔ 0 < s.q.unfinished) ∧
    (∀ it s', put_nowait P s it = (Except.ok (), s') →
      s'.q.unfinished = s.q.unfinished + 1) ∧
    (∀ v s', get_nowait P s = some (Except.ok (some v), s') →
      s'.q.unfinished = s.q.unfinished) ∧
    (∀ ms cs d s0, openQueue ms cs d = some s0 → s0.q.unfinished = s0.q.info.size) := by
  refine ⟨?_, ?_, ?_, ?_, ?_⟩
  · by_cases hv : s.q.unfinished - 1 < 0
    · rw [task_done_err s hv]
      simp
      omega
    · constructor
      · intro hh
        by_cases hd : s.q.update_info = true
        · rw [task_done_eq_pos s hv hd] at hh
          cases hh
        · rw [task_done_eq_neg s hv (by simpa using hd)] at hh
          cases hh
      · intro hh
        omega
  · by_cases hv : s.q.unfinished - 1 < 0
    · rw [task_done_err s hv]
      constructor
      · intro hh
        cases hh
      · intro hh
        omega
    · constructor
      · intro _
        omega
      · intro _
        by_cases hd : s.q.update_info = true
        · rw [task_done_eq_pos s hv hd]
        · rw [task_done_eq_neg s hv (by simpa using hd)]
  · intro it s' h
    obtain ⟨hs', _⟩ := put_nowait_ok P s it s' h
    rw [hs']
    show (_put P s it).q.unfinished + 1 = s.q.unfinished + 1
    rw [(_put_fields P s it).1]
  · intro v s' h
    obtain ⟨hg, _⟩ := get_nowait_ok P s (some v) s' h
    exact (_get_frame P s v s' hg).2.2.1
  · intro ms cs d s0 h
    unfold openQueue at h
    dsimp only at h
    split at h
    · cases h
    · injection h with h1
      rw [← h1]

/-- C4 witness: instantiating the amended characterization on the
one-record queue shows `put` advanced the unfinished counter. -/
theorem C4_witness : (put_nowait PW s0W 7).2.q.unfinished = s0W.q.unfinished + 1 :=
  (C4_taskdone_bound PW s0W).2.2.1 7 (put_nowait PW s0W 7).2 rfl

/-- C5 counterexample: on a freshly opened empty queue (where
`update_info` is `True` and `unfinished_tasks` is zero), the code's
`task_done` raises before persisting, leaving the metadata file absent,
whereas the ordering the claim describes (persist if dirty, clear, then
decrement) would have persisted the metadata before raising — the two
orders are observably different at this reachable state. -/
theorem C5_counterexample :
    openQueue 0 100 emptyDisk = some s0W ∧
    (task_done s0W).2.disk.infoFile = none ∧
    (task_doneSpecOrder s0W).2.disk.infoFile = some s0W.q.info := by
  exact ⟨rfl, rfl, rfl⟩

/-- C5 (as amended): a successful `get()` never writes metadata — it only
sets the dirty flag; `task_done()` performs the inherited decrement/signal
first (raising `ValueError` with nothing persisted when over-called), and
only on success persists the metadata if the dirty flag is set, then
clears the flag. -/
theorem C5_deferred_persist (P : Pickle) (s : Sys) :
    (∀ v s', get_nowait P s = some (Except.ok (some v), s') →
      s'.disk.infoFile = s.disk.infoFile ∧ s'.q.update_info = true) ∧
    (s.q.unfinished ≤ 0 → task_done s = (Except.error QErr.invalidAck, s)) ∧
    (0 < s.q.unfinished → s.q.update_info = true →
      task_done s = (Except.ok (),
        { q := { s.q with unfinished := s.q.unfinished - 1, update_info := false }
          disk := Disk.saveinfo s.disk s.q.info })) ∧
    (0 < s.q.unfinished → s.q.update_info = false →
      task_done s = (Except.ok (),
        { s with q := { s.q with unfinished := s.q.unfinished - 1 } })) := by
  refine ⟨?_, ?_, ?_, ?_⟩
  · intro v s' h
    obtain ⟨hg, _⟩ := get_nowait_ok P s (some v) s' h
    obtain ⟨h1, h2, _⟩ := _get_frame P s v s' hg
    exact ⟨h1, h2⟩
  · intro hv
    exact task_done_err s (by omega)
  · intro hv hd
    exact task_done_eq_pos s (by omega) hd
  · intro hv hd
    exact task_done_eq_neg s (by omega) hd

/-- C5 witness: the amended `task_done` behaviour evaluated on the
one-record queue, whose dirty flag is set. -/
theorem C5_witness :
    task_done s1W = (Except.ok (),
      { q := { s1W.q with unfinished := s1W.q.unfinished - 1, update_info := false }
        disk := Disk.saveinfo s1W.disk s1W.q.info }) :=
  (C5_deferred_persist PW s1W).2.2.1 (by decide) (by decide)

/-- C8: with a positive capacity, a non-blocking `put` at `size == maxsize`
raises `Full`, and a non-blocking `get` at `size == 0` raises `Empty`; in
both cases the raise happens before any mutation, so the object and disk
state come back unchanged. -/
theorem C8_capacity (P : Pickle) (s t : Sys) (it : Nat)
    (hm : 0 < s.q.maxsize) (hsz : s.q.info.size = s.q.maxsize)
    (htz : t.q.info.size = 0) :
    put_nowait P s it = (Except.error QErr.full, s) ∧
    get_nowait P t = some (Except.error QErr.empty, t) := by
  constructor
  · simp only [put_nowait]
    rw [if_pos ⟨hm, by omega⟩]
  · simp only [get_nowait]
    rw [if_pos htz]

/-- C8 witness: the full one-slot queue rejects a `put` with `Full`, and
the fresh empty queue rejects a `get` with `Empty`, both unchanged. -/
theorem C8_witness :
    put_nowait PW sFullW 5 = (Except.error QErr.full, sFullW) ∧
    get_nowait PW s0W = some (Except.error QErr.empty, s0W) :=
  C8_capacity PW sFullW s0W 5 (by decide) (by decide) (by decide)

/-- C10: whenever `_get` runs with the tail cursor lexicographically at or
past the head cursor (the `[tnum, tcnt] >= [hnum, hcnt]` guard), it returns
the end-of-queue `None` immediately — before touching the tail handle — and
the entire state (size, cursors, dirty flag, files, metadata) is returned
unchanged. -/
theorem C10_get_guard (P : Pickle) (s : Sys)
    (h : s.q.info.head.num < s.q.info.tail.num ∨
      (s.q.info.tail.num = s.q.info.head.num ∧
        s.q.info.head.cnt ≤ s.q.info.tail.cnt)) :
    _get P s = some (none, s) := by
  simp only [_get]
  rw [if_pos h]

/-- C10 witness: the guard fires on the fresh empty queue, whose cursors
coincide. -/
theorem C10_witness : _get PW s0W = some (none, s0W) :=
  C10_get_guard PW s0W (Or.inr ⟨rfl, Nat.le_refl 0⟩)

/-- C1: enqueue the items of `L` into a queue freshly opened on an empty
directory, drop the instance, and reopen a queue on the same directory:
`size()` reads `L.length` and `L.length` successive dequeues return exactly
the items of `L` in insertion order. -/
theorem C1_roundtrip (P : Pickle) (cs : Nat) (L : List Nat) (s0 s1 : Sys)
    (hcs : 1 ≤ cs)
    (h0 : openQueue 0 cs emptyDisk = some s0)
    (h1 : putAll P L s0 = some s1) :
    ∃ s2 s3, openQueue 0 cs s1.disk = some s2 ∧
      s2.q.info.size = (L.length : Int) ∧
      drain P L.length s2 = some (L, s3) := by
  obtain ⟨⟨items0, hrep0⟩, hinfo0, hfile0, hms0, _, _⟩ := rep_fresh P 0 cs s0 hcs h0
  obtain ⟨s1', he1, hrepE, hcs1, hms1, hnil1, hinfof1⟩ :=
    putAll_rep P L s0 items0 [] hrep0 (by rw [hms0])
  have hs1 : s1' = s1 := by
    rw [he1] at h1
    exact Option.some.inj h1
  subst hs1
  obtain ⟨items1, hrep1⟩ := hrepE
  rw [List.nil_append] at hrep1
  have hhead : fGet s1'.disk.files s1'.q.info.head.num =
      some (encList P (items1 s1'.q.info.head.num) ++ []) := by
    rw [List.append_nil]
    exact hrep1.hfiles _ hrep1.hle (Nat.le_refl _)
  have hinfo : s1'.disk.infoFile = some s1'.q.info ∨
      (s1'.disk.infoFile = none ∧ s1'.q.info = defaultInfo cs) := by
    cases L with
    | nil =>
        rw [hnil1 rfl]
        exact Or.inr ⟨hfile0, hinfo0⟩
    | cons a as => exact Or.inl (hinfof1 (List.cons_ne_nil a as))
  obtain ⟨s2, he2, hrep2, hinfo2, _, _, _, _⟩ :=
    reopen_rep P s1' items1 L 0 cs s1'.disk [] hrep1 hinfo hhead (fun n _ => rfl)
      hrep1.hnodup
  obtain ⟨s3, he3, _, _, _⟩ := drain_rep P L s2 items1 hrep2
  exact ⟨s2, s3, he2, hrep2.hsz, he3⟩

/-- C1 witness: three records round-trip across a reopen. -/
theorem C1_witness : ∃ s2 s3, openQueue 0 100 Wq1.disk = some s2 ∧
    s2.q.info.size = (([3, 1, 4] : List Nat).length : Int) ∧
    drain PW ([3, 1, 4] : List Nat).length s2 = some ([3, 1, 4], s3) :=
  C1_roundtrip PW 100 [3, 1, 4] s0W Wq1 (by decide) rfl rfl

/-- Raw bytes appended to a chunk file of a closed queue, as a crashed
partial write (or the `test_PartialWrite` scenario) would leave them. -/
def appendBytes (d : Disk) (n : Nat) (junk : List Nat) : Disk :=
  { d with files := fSet d.files n ((fGet d.files n).getD [] ++ junk) }

/-- C2: on open, a head chunk file longer than the persisted head byte
offset is truncated back to exactly that offset before the head handle is
opened for append; hence appending arbitrary extra bytes to the head chunk
of a closed queue (metadata untouched) and reopening leaves `size()` at the
persisted size, dequeuing returns exactly the committed records in order,
and the next non-blocking `get` raises `Empty`. -/
theorem C2_truncate_recovery (P : Pickle) (s : Sys) (items : Nat → List Nat)
    (pending junk : List Nat) (ms : Int) (cs : Nat)
    (h : RepWith P s items pending)
    (hinfo : s.disk.infoFile = some s.q.info) :
    ∃ s2 s3, openQueue ms cs (appendBytes s.disk s.q.info.head.num junk) = some s2 ∧
      s2.q.info.size = (pending.length : Int) ∧
      drain P pending.length s2 = some (pending, s3) ∧
      get_nowait P s3 = some (Except.error QErr.empty, s3) := by
  have hH0 : fGet s.disk.files s.q.info.head.num =
      some (encList P (items s.q.info.head.num)) :=
    h.hfiles _ h.hle (Nat.le_refl _)
  have hhead : fGet (appendBytes s.disk s.q.info.head.num junk).files s.q.info.head.num =
      some (encList P (items s.q.info.head.num) ++ junk) := by
    show fGet (fSet s.disk.files s.q.info.head.num
      ((fGet s.disk.files s.q.info.head.num).getD [] ++ junk)) s.q.info.head.num = _
    rw [hH0, fGet_fSet_self]
    rfl
  have hother : ∀ n, n ≠ s.q.info.head.num →
      fGet (appendBytes s.disk s.q.info.head.num junk).files n = fGet s.disk.files n := by
    intro n hn
    exact fGet_fSet_ne _ _ _ _ hn
  obtain ⟨s2, he2, hrep2, _, _, _, _, _⟩ :=
    reopen_rep P s items pending ms cs (appendBytes s.disk s.q.info.head.num junk) junk h
      (Or.inl hinfo) hhead hother (fSet_nodup _ _ _ h.hnodup)
  obtain ⟨s3, he3, ⟨items3, hrep3⟩, _, _⟩ := drain_rep P pending s2 items hrep2
  exact ⟨s2, s3, he2, hrep2.hsz, he3, get_empty P s3 items3 hrep3⟩

/-- C2 witness: a one-record queue with two garbage bytes appended to its
head chunk recovers its single committed record and then reads `Empty`. -/
theorem C2_witness : ∃ s2 s3,
    openQueue 0 100 (appendBytes s1W.disk s1W.q.info.head.num [9, 9]) = some s2 ∧
    s2.q.info.size = (([7] : List Nat).length : Int) ∧
    drain PW ([7] : List Nat).length s2 = some ([7], s3) ∧
    get_nowait PW s3 = some (Except.error QErr.empty, s3) := by
  obtain ⟨⟨items0, hrep0⟩, _, _, _, _, _⟩ := rep_fresh PW 0 100 s0W (by decide) rfl
  obtain ⟨s', he, hrepE, hinfof, _, _, _, _⟩ := put_step PW s0W items0 [] 7 hrep0 (by decide)
  have hs' : s1W = s' := congrArg Prod.snd he
  subst hs'
  obtain ⟨items1, hrep1⟩ := hrepE
  rw [List.nil_append] at hrep1
  exact C2_truncate_recovery PW s1W items1 [7] [9, 9] 0 100 hrep1 hinfof

/-- C6: in every state reachable by `put`/`get`/`taskDone` from a freshly
opened queue, the tail cursor is lexicographically at most the head cursor,
the size equals the number of records between them, the size is never
negative and never exceeds a positive `maxsize`, and each successful put
(resp. get) increments (resp. decrements) it by exactly one. -/
theorem C6_invariants (P : Pickle) (ms : Int) (cs : Nat) (s : Sys)
    (hcs : 1 ≤ cs) (hr : Reach P ms cs s) :
    (s.q.info.tail.num < s.q.info.head.num ∨
      (s.q.info.tail.num = s.q.info.head.num ∧
        s.q.info.tail.cnt ≤ s.q.info.head.cnt)) ∧
    s.q.info.size = ((s.q.info.head.num : Int) - s.q.info.tail.num) * s.q.info.chunksize
      + s.q.info.head.cnt - s.q.info.tail.cnt ∧
    0 ≤ s.q.info.size ∧
    (0 < ms → s.q.info.size ≤ ms) ∧
    (∀ it s', put_nowait P s it = (Except.ok (), s') →
      s'.q.info.size = s.q.info.size + 1) ∧
    (∀ v s', get_nowait P s = some (Except.ok (some v), s') →
      s'.q.info.size = s.q.info.size - 1) := by
  obtain ⟨pending, ⟨items, hrep⟩, hbound, hms, hcsz⟩ := reach_inv P ms cs hcs s hr
  refine ⟨?_, rep_size_formula P s items pending hrep, ?_, hbound, ?_, ?_⟩
  · rcases Nat.lt_or_ge s.q.info.tail.num s.q.info.head.num with hTH | hTH
    · exact Or.inl hTH
    · have hTH2 := Nat.le_antisymm hrep.hle hTH
      exact Or.inr ⟨hTH2, hrep.htle hTH2⟩
  · rw [hrep.hsz]
    exact Int.natCast_nonneg _
  · intro it s' h
    obtain ⟨hs', _⟩ := put_nowait_ok P s it s' h
    rw [hs']
    show (_put P s it).q.info.size = s.q.info.size + 1
    exact (_put_fields P s it).2.2.2.1
  · intro v s' h
    obtain ⟨hg, _⟩ := get_nowait_ok P s (some v) s' h
    exact (_get_frame P s v s' hg).2.2.2.2.1

/-- C6 witness: the invariants instantiated on a fresh bounded queue. -/
theorem C6_witness : (0 : Int) ≤ s0W1.q.info.size :=
  (C6_invariants PW 2 1 s0W1 (by decide) (Reach.init s0W1 rfl)).2.2.1

/-- The open procedure never removes a chunk file: it only truncates the
head chunk's content and creates the head chunk when absent. -/
theorem openQueue_keeps (ms : Int) (cs : Nat) (d : Disk) (t : Sys)
    (h : openQueue ms cs d = some t) (n : Nat)
    (hs : (fGet d.files n).isSome) : (fGet t.disk.files n).isSome := by
  unfold openQueue at h
  dsimp only at h
  rcases hh : fGet d.files (d.infoFile.getD (defaultInfo cs)).head.num with _ | f
  all_goals rw [hh] at h
  all_goals dsimp only at h
  · rcases ht : fGet (touch d.files (d.infoFile.getD (defaultInfo cs)).head.num)
        (d.infoFile.getD (defaultInfo cs)).tail.num with _ | g
    all_goals rw [ht] at h
    · cases h
    · injection h with h1
      rw [← h1]
      exact fGet_touch_isSome _ _ _ hs
  · by_cases hlt : (d.infoFile.getD (defaultInfo cs)).head.off < f.length
    · rw [if_pos hlt] at h
      rcases ht : fGet (touch (fSet d.files (d.infoFile.getD (defaultInfo cs)).head.num
          (f.take (d.infoFile.getD (defaultInfo cs)).head.off))
          (d.infoFile.getD (defaultInfo cs)).head.num)
          (d.infoFile.getD (defaultInfo cs)).tail.num with _ | g
      all_goals rw [ht] at h
      · cases h
      · injection h with h1
        rw [← h1]
        exact fGet_touch_isSome _ _ _ (fGet_fSet_isSome _ _ _ _ hs)
    · rw [if_neg hlt] at h
      rcases ht : fGet (touch d.files (d.infoFile.getD (defaultInfo cs)).head.num)
          (d.infoFile.getD (defaultInfo cs)).tail.num with _ | g
      all_goals rw [ht] at h
      · cases h
      · injection h with h1
        rw [← h1]
        exact fGet_touch_isSome _ _ _ hs

/-- C7: on a well-formed state, a chunk file disappears during a `get`
only when it is the tail chunk, that `get` drained its last record
(`tcnt+1 == chunksize`), and its index is at most the head chunk index;
conversely, a `get` that drains the tail chunk under that index condition
deletes its file within the same call; `put`, `taskDone` and the open
procedure never remove a chunk file. -/
theorem C7_chunk_cleanup (P : Pickle) (s : Sys) (items : Nat → List Nat)
    (pending : List Nat) (h : RepWith P s items pending) :
    (∀ v s', get_nowait P s = some (Except.ok (some v), s') →
      (∀ n g, fGet s.disk.files n = some g → fGet s'.disk.files n = none →
        n = s.q.info.tail.num ∧ s.q.info.tail.cnt + 1 = s.q.info.chunksize ∧
          n ≤ s.q.info.head.num) ∧
      (s.q.info.tail.cnt + 1 = s.q.info.chunksize →
        fGet s'.disk.files s.q.info.tail.num = none)) ∧
    (∀ it s', put_nowait P s it = (Except.ok (), s') →
      ∀ n, (fGet s.disk.files n).isSome → (fGet s'.disk.files n).isSome) ∧
    (∀ s', task_done s = (Except.ok (), s') → s'.disk.files = s.disk.files) ∧
    (∀ ms cs d t, openQueue ms cs d = some t →
      ∀ n, (fGet d.files n).isSome → (fGet t.disk.files n).isSome) := by
  refine ⟨?_, ?_, ?_, fun ms cs d t ho n hn => openQueue_keeps ms cs d t ho n hn⟩
  · intro v s' hgn
    obtain ⟨hg, hsznz⟩ := get_nowait_ok P s (some v) s' hgn
    cases pending with
    | nil =>
        refine absurd ?_ hsznz
        rw [h.hsz]
        rfl
    | cons v0 rest =>
        obtain ⟨s2, he2, _, _, _, _, _, _, _, _, hrem1, hrem2⟩ := _get_spec P s items v0 rest h
        rw [he2] at hg
        injection Option.some.inj hg with hv hsS
        subst hsS
        constructor
        · intro n g hsome hnone
          exact hrem1 n g hnone hsome
        · exact hrem2
  · intro it s' hput n hs
    obtain ⟨hs', _⟩ := put_nowait_ok P s it s' hput
    rw [hs']
    exact _put_keeps P s it n hs
  · intro s' hdone
    have h2 : (task_done s).2 = s' := by
      have := congrArg Prod.snd hdone
      simpa using this
    rw [← h2]
    exact (task_done_frame s).2.2

/-- C7 witness: the put clause of the cleanup discipline evaluated on the
fresh queue — the `put` of one record keeps chunk `q00000` on disk. -/
theorem C7_witness : (fGet (put_nowait PW s0W 5).2.disk.files 0).isSome = true := by
  obtain ⟨⟨items, hrep⟩, _, _, _, _, _⟩ := rep_fresh PW 0 100 s0W (by decide) rfl
  exact (C7_chunk_cleanup PW s0W items [] hrep).2.1 5 (put_nowait PW s0W 5).2 rfl 0
    (by decide)

/-- C9 counterexample: on a `chunksize=1` queue every `put` rolls the head
chunk over; injecting a failure into the `open` of the next head chunk
makes `_put` raise after `headf.close()` has already run, so the failure
propagates but the in-memory handle state has mutated (the head handle is
left closed) — contradicting the claim that no partial mutation is applied
to the open handles. -/
theorem C9_counterexample :
    openQueue 0 1 emptyDisk = some s0Wc1 ∧
    (_putF PW FailAt.openHead s0Wc1 7).1 = false ∧
    (_putF PW FailAt.openHead s0Wc1 7).2.q.headOpen = false ∧
    s0Wc1.q.headOpen = true := ⟨rfl, rfl, rfl, rfl⟩

/-- C9 (as amended): storage failures during `put` always propagate to the
caller — a run that reports success has performed the full normal effect,
nothing is swallowed or retried — but the in-memory state may be left
partially mutated: a failure opening the next head chunk during rollover
leaves the head handle closed with the cursors un-advanced, and a failure
of `_saveinfo`'s rename leaves the in-memory cursors advanced while the
on-disk metadata file is stale. -/
theorem C9_failure_propagation (P : Pickle) (s : Sys) (it : Nat) :
    _putF P FailAt.ok s it = (true, _put P s it) ∧
    (∀ fp, (_putF P fp s it).1 = true → _putF P fp s it = (true, _put P s it)) ∧
    (s.q.info.head.cnt + 1 = s.q.info.chunksize →
      _putF P FailAt.openHead s it = (false,
        { q := { s.q with headOpen := false }
          disk := { files := fSet s.disk.files s.q.headNum
                      ((fGet s.disk.files s.q.headNum).getD [] ++ P.enc it)
                    infoFile := s.disk.infoFile } })) ∧
    ((_putF P FailAt.rename s it).1 = false ∧
      (_putF P FailAt.rename s it).2.disk.infoFile = s.disk.infoFile ∧
      (_putF P FailAt.rename s it).2.q.info.size = s.q.info.size + 1) := by
  have hok : _putF P FailAt.ok s it = (true, _put P s it) := by
    by_cases hroll : s.q.info.head.cnt + 1 = s.q.info.chunksize
    · simp [_putF, _put, hroll]
    · simp [_putF, _put, hroll]
  have hopen : s.q.info.head.cnt + 1 = s.q.info.chunksize →
      _putF P FailAt.openHead s it = (false,
        { q := { s.q with headOpen := false }
          disk := { files := fSet s.disk.files s.q.headNum
                      ((fGet s.disk.files s.q.headNum).getD [] ++ P.enc it)
                    infoFile := s.disk.infoFile } }) := by
    intro hroll
    simp [_putF, hroll]
  have hren : (_putF P FailAt.rename s it).1 = false := by
    by_cases hroll : s.q.info.head.cnt + 1 = s.q.info.chunksize
    · simp [_putF, hroll]
    · simp [_putF, hroll]
  refine ⟨hok, ?_, hopen, hren, ?_, ?_⟩
  · intro fp hfp
    cases fp with
    | ok => exact hok
    | openHead =>
        by_cases hroll : s.q.info.head.cnt + 1 = s.q.info.chunksize
        · rw [hopen hroll] at hfp
          cases hfp
        · simp [_putF, _put, hroll]
    | rename =>
        rw [hren] at hfp
        cases hfp
  · by_cases hroll : s.q.info.head.cnt + 1 = s.q.info.chunksize
    · simp [_putF, hroll]
    · simp [_putF, hroll]
  · by_cases hroll : s.q.info.head.cnt + 1 = s.q.info.chunksize
    · simp [_putF, hroll]
    · simp [_putF, hroll]

/-- C9 witness: the rollover failure clause instantiated on the
`chunksize=1` fresh queue. -/
theorem C9_witness :
    _putF PW FailAt.openHead s0Wc1 7 = (false,
      { q := { s0Wc1.q with headOpen := false }
        disk := { files := fSet s0Wc1.disk.files s0Wc1.q.headNum
                    ((fGet s0Wc1.disk.files s0Wc1.q.headNum).getD [] ++ PW.enc 7)
                  infoFile := s0Wc1.disk.infoFile } }) :=
  (C9_failure_propagation PW s0Wc1 7).2.2.1 (by decide)

end PqueueModel
